import Mathlib

/-!
Verification of the flattened-device-tree (FDT) engine of
src/src/base/device_tree.c.

Shallow embedding conventions:
* Byte buffers are modelled as List Nat (each element one byte).  Reads past
  the end of a buffer yield 0 via List.getD; the C code never performs such
  reads on the inputs covered by the theorems below.
* A C string (char pointer) is modelled as the list of its bytes before the
  terminating NUL, so it contains no 0 byte; strcmp equality is list equality
  and strlen is List.length under this convention.
* A (data pointer, size) pair describing a property value is modelled as the
  list of exactly those size bytes.
* uint32 / uint64 arithmetic is Nat arithmetic with explicit % 2^32 / % 2^64
  at the points where the C code truncates to a machine word.
* The FdtHeader field layout (device_tree.h is not among the provided source
  files) is modelled from the spec and the standard FDT wire format referred
  to by the spec: magic at byte 0, totalsize at 4, structure_offset at 8,
  strings_offset at 12, reserve_map_offset at 16, strings_size at 32,
  structure_size at 36; the header is at least 40 bytes.
* The token values (device_tree.h is not among the provided source files) are
  modelled from the FDT wire format named by the spec:
  TokenBeginNode = 1, TokenEndNode = 2, TokenProperty = 3, TokenEnd = 9.
  No theorem below depends on the concrete numbers, only on their being
  pairwise distinct.
-/

/-- Modelled from the spec: FDT structure-block token tags (BEGIN_NODE). -/
def TokenBeginNode : Nat := 1

/-- Modelled from the spec: FDT structure-block token tags (END_NODE). -/
def TokenEndNode : Nat := 2

/-- Modelled from the spec: FDT structure-block token tags (PROP). -/
def TokenProperty : Nat := 3

/-- Modelled from the spec: FDT structure-block token tags (END). -/
def TokenEnd : Nat := 9

/-- Big-endian encoding of the low 32 bits of a value, as written by
htobe32 stores in device_tree.c. -/
def be32 (v : Nat) : List Nat :=
  [v / 2 ^ 24 % 256, v / 2 ^ 16 % 256, v / 2 ^ 8 % 256, v % 256]

/-- Big-endian encoding of the low 64 bits of a value (htobe64 stores). -/
def be64 (v : Nat) : List Nat :=
  [v / 2 ^ 56 % 256, v / 2 ^ 48 % 256, v / 2 ^ 40 % 256, v / 2 ^ 32 % 256,
   v / 2 ^ 24 % 256, v / 2 ^ 16 % 256, v / 2 ^ 8 % 256, v % 256]

/-- Byte read from a buffer (reads past the end give 0). -/
def byteAt (l : List Nat) (i : Nat) : Nat := l.getD i 0

/-- Big-endian 32-bit read at a byte offset, as done by
be32toh(*(uint32_t *)(blob + offset)). -/
def be32at (l : List Nat) (off : Nat) : Nat :=
  byteAt l off * 2 ^ 24 + byteAt l (off + 1) * 2 ^ 16 +
    byteAt l (off + 2) * 2 ^ 8 + byteAt l (off + 3)

/-- Big-endian 64-bit read at a byte offset (be64toh of a uint64 load). -/
def be64at (l : List Nat) (off : Nat) : Nat :=
  byteAt l off * 2 ^ 56 + byteAt l (off + 1) * 2 ^ 48 +
    byteAt l (off + 2) * 2 ^ 40 + byteAt l (off + 3) * 2 ^ 32 +
    byteAt l (off + 4) * 2 ^ 24 + byteAt l (off + 5) * 2 ^ 16 +
    byteAt l (off + 6) * 2 ^ 8 + byteAt l (off + 7)

/-- size32 from device_tree.c: (val + sizeof(uint32_t) - 1) / sizeof(uint32_t)
in uint32 arithmetic. -/
def size32 (v : Nat) : Nat := (v % 2 ^ 32 + 3) % 2 ^ 32 / 4

/-- The bytes of a value region padded with the unwritten tail up to the next
4-byte boundary.  The C code advances its cursor past the padding without
writing it; the pad bytes are modelled as zeros, and no reader below ever
inspects them. -/
def pad32 (l : List Nat) : List Nat :=
  l ++ List.replicate (size32 l.length * 4 - l.length) 0

/-- Bytes of a NUL-terminated string read from memory: everything strictly
before the first 0 byte. -/
def takeUntilNul : List Nat → List Nat
  | [] => []
  | b :: bs => if b = 0 then [] else b :: takeUntilNul bs

/-- The C string found at a byte offset inside a blob. -/
def readCString (blob : List Nat) (off : Nat) : List Nat :=
  takeUntilNul (blob.drop off)

/-- Byte contents of a Lean string literal viewed as a C string. -/
def strBytes (s : String) : List Nat := s.toList.map Char.toNat

/-- FdtProperty from device_tree.h: a property name (C string) together with
the value bytes; the size field of the C struct is the length of the data
list under the region-as-list convention. -/
structure FdtProperty where
  name : List Nat
  data : List Nat
deriving DecidableEq

/-- DeviceTreeNode from device_tree.h: node name, properties in list order,
children in list order (the intrusive list_node threading is modelled by the
Lean lists themselves). -/
inductive DTNode where
  | mk : List Nat → List FdtProperty → List DTNode → DTNode

/-- Name of a node. -/
def DTNode.name : DTNode → List Nat
  | .mk n _ _ => n

/-- Properties of a node, in list order. -/
def DTNode.props : DTNode → List FdtProperty
  | .mk _ ps _ => ps

/-- Children of a node, in list order. -/
def DTNode.children : DTNode → List DTNode
  | .mk _ _ cs => cs

/-- DeviceTreeReserveMapEntry from device_tree.h: one reserved physical
memory range (start, size), both uint64 in C. -/
structure ReserveEntry where
  start : Nat
  size : Nat
deriving DecidableEq

/-- DeviceTree from device_tree.h, for trees built in memory: the preserved
header prefix bytes (header pointer plus header_size in C; header_size is the
length of the list here), the reserve map entries in list order, and the root
node. -/
structure DeviceTree where
  header : List Nat
  reserve_map : List ReserveEntry
  root : DTNode

/-- Result of fdt_unflatten: the computed header_size, the reserve-map
entries in list order, and the unflattened root (none when the structure
block does not start with a begin-node token, matching the C tree->root
remaining NULL after xzalloc). -/
structure UnflatTree where
  headerSize : Nat
  reserveMap : List ReserveEntry
  root : Option DTNode

/-! ## Binary tree reader (fdt_next_property, fdt_node_name) -/

/-- fdt_next_property from device_tree.c.  Returns the parsed property (none
when the token at the offset is not TokenProperty) and the number of bytes
consumed (0 on failure).  The name is resolved through the strings_offset
header field at byte 12 of the blob; the uint32 addition of the two offsets
wraps mod 2^32 as in C. -/
def fdt_next_property (blob : List Nat) (offset : Nat) : Option FdtProperty × Nat :=
  if be32at blob offset ≠ TokenProperty then (none, 0)
  else
    let size := be32at blob (offset + 4)
    let nameOffset := (be32at blob (offset + 8) + be32at blob 12) % 2 ^ 32
    (some ⟨readCString blob nameOffset, (blob.drop (offset + 12)).take size⟩,
     (3 + size32 size) * 4)

/-- fdt_node_name from device_tree.c.  Returns the node name (none when the
token at the offset is not TokenBeginNode) and the number of bytes consumed
(0 on failure). -/
def fdt_node_name (blob : List Nat) (offset : Nat) : Option (List Nat) × Nat :=
  if be32at blob offset ≠ TokenBeginNode then (none, 0)
  else
    let name := readCString blob (offset + 4)
    (some name, size32 (name.length + 1) * 4 + 4)

/-! ## Tree builder (fdt_unflatten and helpers)

The C recursions terminate because each successful step consumes a positive
number of bytes of a finite blob.  The Lean versions take an explicit fuel
argument bounding the number of loop iterations and recursive calls;
fdt_unflatten below passes blob.length, which is shown to be sufficient for
every blob produced by dt_flatten. -/

/-- The property-reading loop of fdt_unflatten_node: collects consecutive
properties and the total bytes consumed. -/
def unflatten_props (blob : List Nat) : Nat → Nat → List FdtProperty × Nat
  | 0, _ => ([], 0)
  | fuel + 1, offset =>
    match fdt_next_property blob offset with
    | (none, _) => ([], 0)
    | (some p, size) =>
      let r := unflatten_props blob fuel (offset + size)
      (p :: r.1, size + r.2)

mutual

/-- fdt_unflatten_node from device_tree.c: parse one node (name, properties,
children) returning the node and the bytes consumed including the trailing
end-node token; (none, 0) when the token at the offset is not a begin-node
token. -/
def fdt_unflatten_node (blob : List Nat) : Nat → Nat → Option DTNode × Nat
  | 0, _ => (none, 0)
  | fuel + 1, offset =>
    match fdt_node_name blob offset with
    | (none, _) => (none, 0)
    | (some name, nsize) =>
      let ps := unflatten_props blob fuel (offset + nsize)
      let cs := unflatten_children blob fuel (offset + nsize + ps.2)
      (some (DTNode.mk name ps.1 cs.1), nsize + ps.2 + cs.2 + 4)

/-- The child-reading loop of fdt_unflatten_node: collects consecutive child
nodes and the total bytes consumed. -/
def unflatten_children (blob : List Nat) : Nat → Nat → List DTNode × Nat
  | 0, _ => ([], 0)
  | fuel + 1, offset =>
    match fdt_unflatten_node blob fuel offset with
    | (none, _) => ([], 0)
    | (some c, size) =>
      let r := unflatten_children blob fuel (offset + size)
      (c :: r.1, size + r.2)

end

/-- fdt_unflatten_map_entry from device_tree.c: one 16-byte (start, size)
reserve-map pair; (none, 0) when size is 0 (the sentinel). -/
def fdt_unflatten_map_entry (blob : List Nat) (off : Nat) :
    Option ReserveEntry × Nat :=
  let start := be64at blob off
  let size := be64at blob (off + 8)
  if size = 0 then (none, 0)
  else (some ⟨start, size⟩, 16)

/-- The reserve-map loop of fdt_unflatten. -/
def unflatten_resmap (blob : List Nat) : Nat → Nat → List ReserveEntry × Nat
  | 0, _ => ([], 0)
  | fuel + 1, off =>
    match fdt_unflatten_map_entry blob off with
    | (none, _) => ([], 0)
    | (some e, size) =>
      let r := unflatten_resmap blob fuel (off + size)
      (e :: r.1, size + r.2)

/-- fdt_unflatten from device_tree.c: reads the three section offsets from
the header, takes their minimum as the preserved header size, walks the
reserve map, and unflattens the root node from the structure offset. -/
def fdt_unflatten (blob : List Nat) : UnflatTree :=
  let structOff := be32at blob 8
  let stringsOff := be32at blob 12
  let reserveOff := be32at blob 16
  let minOff := min (min structOff stringsOff) reserveOff
  ⟨minOff, (unflatten_resmap blob blob.length reserveOff).1,
   (fdt_unflatten_node blob blob.length structOff).1⟩

/-! ## fdt_skip_node -/

/-- The property-skipping loop of fdt_skip_node (fdt_next_property is called
with a NULL property pointer in C; the consumed count is the same). -/
def skip_props (blob : List Nat) : Nat → Nat → Nat
  | 0, _ => 0
  | fuel + 1, offset =>
    match fdt_next_property blob offset with
    | (none, _) => 0
    | (some _, size) => size + skip_props blob fuel (offset + size)

mutual

/-- fdt_skip_node from device_tree.c: advance past one whole node without
materializing anything; 0 when the token at the offset is not a begin-node
token. -/
def fdt_skip_node (blob : List Nat) : Nat → Nat → Nat
  | 0, _ => 0
  | fuel + 1, offset =>
    match fdt_node_name blob offset with
    | (none, _) => 0
    | (some _, nsize) =>
      let psize := skip_props blob fuel (offset + nsize)
      let csize := skip_children blob fuel (offset + nsize + psize)
      nsize + psize + csize + 4

/-- The child-skipping loop of fdt_skip_node. -/
def skip_children (blob : List Nat) : Nat → Nat → Nat
  | 0, _ => 0
  | fuel + 1, offset =>
    match fdt_skip_node blob fuel offset with
    | 0 => 0
    | size + 1 =>
      size + 1 + skip_children blob fuel (offset + (size + 1))

end

/-! ## Size calculator (dt_flat_size and helpers) -/

/-- dt_flat_prop_size from device_tree.c: (structure-block bytes,
strings-block bytes) contributed by one property: starting token, size, name
offset, padded value; name length plus NUL. -/
def dt_flat_prop_size (p : FdtProperty) : Nat × Nat :=
  (4 + 4 + 4 + size32 p.data.length * 4, p.name.length + 1)

/-- Accumulated dt_flat_prop_size over a property list. -/
def dt_flat_props_size : List FdtProperty → Nat × Nat
  | [] => (0, 0)
  | p :: ps =>
    let h := dt_flat_prop_size p
    let t := dt_flat_props_size ps
    (h.1 + t.1, h.2 + t.2)

mutual

/-- dt_flat_node_size from device_tree.c: (structure-block bytes,
strings-block bytes) of one node: begin token, padded name, properties,
children, end token. -/
def dt_flat_node_size : DTNode → Nat × Nat
  | .mk name ps cs =>
    let p := dt_flat_props_size ps
    let c := dt_flat_nodes_size cs
    (4 + size32 (name.length + 1) * 4 + p.1 + c.1 + 4, p.2 + c.2)

/-- Accumulated dt_flat_node_size over a child list (the list_for_each loop
over children). -/
def dt_flat_nodes_size : List DTNode → Nat × Nat
  | [] => (0, 0)
  | c :: cs =>
    let h := dt_flat_node_size c
    let t := dt_flat_nodes_size cs
    (h.1 + t.1, h.2 + t.2)

end

/-- dt_flat_size from device_tree.c: header prefix, reserve-map entries plus
the 16-byte zero terminator, structure block, end token, strings block. -/
def dt_flat_size (t : DeviceTree) : Nat :=
  t.header.length + 16 * t.reserve_map.length + 16 +
    (dt_flat_node_size t.root).1 + 4 + (dt_flat_node_size t.root).2

/-! ## Flattener (dt_flatten and helpers) -/

/-- dt_flatten_prop from device_tree.c: the structure-block bytes (token,
size, name offset, padded value) and strings-block bytes (name plus NUL)
emitted for one property, where slen is the number of strings-block bytes
already written (dstrings - strings_base). -/
def dt_flatten_prop (p : FdtProperty) (slen : Nat) : List Nat × List Nat :=
  (be32 TokenProperty ++ be32 p.data.length ++ be32 slen ++ pad32 p.data,
   p.name ++ [0])

/-- The property loop of dt_flatten_node, threading the strings cursor. -/
def dt_flatten_props : List FdtProperty → Nat → List Nat × List Nat
  | [], _ => ([], [])
  | p :: ps, slen =>
    let h := dt_flatten_prop p slen
    let t := dt_flatten_props ps (slen + h.2.length)
    (h.1 ++ t.1, h.2 ++ t.2)

mutual

/-- dt_flatten_node from device_tree.c: begin token, padded NUL-terminated
name, properties, children, end token on the structure cursor; the property
names on the strings cursor. -/
def dt_flatten_node : DTNode → Nat → List Nat × List Nat
  | .mk name ps cs, slen =>
    let p := dt_flatten_props ps slen
    let c := dt_flatten_nodes cs (slen + p.2.length)
    (be32 TokenBeginNode ++ pad32 (name ++ [0]) ++ p.1 ++ c.1 ++
       be32 TokenEndNode,
     p.2 ++ c.2)

/-- The child loop of dt_flatten_node, threading the strings cursor. -/
def dt_flatten_nodes : List DTNode → Nat → List Nat × List Nat
  | [], _ => ([], [])
  | c :: cs, slen =>
    let h := dt_flatten_node c slen
    let t := dt_flatten_nodes cs (slen + h.2.length)
    (h.1 ++ t.1, h.2 ++ t.2)

end

/-- The reserve-map bytes written by the dt_flatten_map_entry loop. -/
def resmapBytes : List ReserveEntry → List Nat
  | [] => []
  | e :: es => be64 e.start ++ be64 e.size ++ resmapBytes es

/-- dt_flatten from device_tree.c as the final byte image of the destination
buffer.  The C code memcpys the preserved header, emits the reserve map plus
a zero terminator, skips structure_size bytes (filled by dt_flatten_node
afterwards), writes the end token, emits the strings block, and stores the
five recomputed header fields (totalsize at byte 4, structure_offset at 8,
strings_offset at 12, strings_size at 32, structure_size at 36) through the
destination header.  The image below is that write sequence for a header of
at least 40 bytes, using the fact (proved in dt_flatten_node_length) that
dt_flatten_node emits exactly the byte counts computed by
dt_flat_node_size. -/
def dt_flatten (t : DeviceTree) : List Nat :=
  let sizes := dt_flat_node_size t.root
  let structOff := t.header.length + 16 * t.reserve_map.length + 16
  let stringsOff := structOff + sizes.1 + 4
  t.header.take 4 ++ be32 (stringsOff + sizes.2) ++ be32 structOff ++
    be32 stringsOff ++ (t.header.drop 16).take 16 ++ be32 sizes.2 ++
    be32 sizes.1 ++ t.header.drop 40 ++
    resmapBytes t.reserve_map ++ be64 0 ++ be64 0 ++
    (dt_flatten_node t.root 0).1 ++ be32 TokenEnd ++ (dt_flatten_node t.root 0).2

/-! ## Navigator / mutator -/

/-- Replace a node's child list (mutation of the children field). -/
def DTNode.withChildren : DTNode → List DTNode → DTNode
  | .mk n ps _, cs => .mk n ps cs

/-- Replace a node's property list (mutation of the properties field). -/
def DTNode.withProps : DTNode → List FdtProperty → DTNode
  | .mk n _ cs, ps => .mk n ps cs

/-- dt_read_cell_props from device_tree.c: scan the property list, storing
the leading big-endian 32-bit word of any #address-cells / #size-cells
property into the two cells (a later match overwrites an earlier one, as the
loop runs over all properties). -/
def dt_read_cell_props : List FdtProperty → Option Nat × Option Nat →
    Option Nat × Option Nat
  | [], cells => cells
  | p :: ps, (a, s) =>
    let a2 := if p.name == strBytes "#address-cells"
      then some (be32at p.data 0) else a
    let s2 := if p.name == strBytes "#size-cells"
      then some (be32at p.data 0) else s
    dt_read_cell_props ps (a2, s2)

/-- The child-search loop of dt_find_node: first child whose name matches
the path component (strcmp + break). -/
def findFirstNamed : List DTNode → List Nat → Option DTNode
  | [], _ => none
  | c :: cs, comp => if c.name == comp then some c else findFirstNamed cs comp

/-- Replace the first child whose name matches the component (the in-place
mutation of the found child in the C code). -/
def replaceFirstNamed : List DTNode → List Nat → DTNode → List DTNode
  | [], _, _ => []
  | c :: cs, comp, c2 =>
    if c.name == comp then c2 :: cs else c :: replaceFirstNamed cs comp c2

/-- dt_find_node from device_tree.c.  Returns the found/created node, the
updated subtree rooted at the starting node (the C code mutates in place),
and the updated #address-cells/#size-cells values.  An empty path returns
the starting node; a missing component is created (name only, no properties
or children) and inserted by list_insert_after at the front of the child
list when create is true, and fails otherwise. -/
def dt_find_node (parent : DTNode) (path : List (List Nat))
    (cells : Option Nat × Option Nat) (create : Bool) :
    Option DTNode × DTNode × (Option Nat × Option Nat) :=
  let cells2 := dt_read_cell_props parent.props cells
  match path with
  | [] => (some parent, parent, cells2)
  | comp :: rest =>
    match findFirstNamed parent.children comp with
    | some found =>
      let r := dt_find_node found rest cells2 create
      (r.1, parent.withChildren (replaceFirstNamed parent.children comp r.2.1),
       r.2.2)
    | none =>
      if create then
        let r := dt_find_node (DTNode.mk comp [] []) rest cells2 create
        (r.1, parent.withChildren (r.2.1 :: parent.children), r.2.2)
      else (none, parent, cells2)

/-- strncmp(a, b, n) == 0 where a and b are the byte contents of memory from
each pointer onward: compare up to n bytes, stopping early at a NUL on
either side (equal iff the comparison stops without a mismatch). -/
def strncmpEq : List Nat → List Nat → Nat → Bool
  | _, _, 0 => true
  | a, b, n + 1 =>
    if a.headD 0 ≠ b.headD 0 then false
    else if a.headD 0 = 0 then true
    else strncmpEq a.tail b.tail n

/-- strnlen(b, n): number of bytes before the first NUL, capped at n. -/
def strnlen (b : List Nat) (n : Nat) : Nat :=
  ((b.take n).takeWhile (· != 0)).length

/-- The entry-matching loop of dt_check_compat_match, with str the remaining
property bytes (bytes = length of str at every call, maintained by the
loop).  The C loop terminates because bytes strictly decreases; fuel bounds
the iteration count and any fuel ≥ bytes is sufficient. -/
def compatLoop (compat : List Nat) : Nat → List Nat → Nat → Bool
  | 0, _, _ => false
  | fuel + 1, str, bytes =>
    if bytes = 0 then false
    else if strncmpEq (compat ++ [0]) str bytes then true
    else
      let len := strnlen str bytes + 1
      if bytes ≤ len then false
      else compatLoop compat fuel (str.drop len) (bytes - len)

/-- dt_check_compat_match from device_tree.c: find the first property named
compatible (break afterwards regardless of the outcome) and scan its
NUL-separated entries for the compat string. -/
def dt_check_compat_match (node : DTNode) (compat : List Nat) : Bool :=
  match node.props.find? (fun p => p.name == strBytes "compatible") with
  | some p => compatLoop compat p.data.length p.data p.data.length
  | none => false

mutual

/-- dt_find_compat from device_tree.c: the parent itself is checked first,
then each child subtree in list order. -/
def dt_find_compat : DTNode → List Nat → Option DTNode
  | .mk n ps cs, compat =>
    if dt_check_compat_match (DTNode.mk n ps cs) compat then
      some (DTNode.mk n ps cs)
    else dt_find_compat_children cs compat

/-- The child loop of dt_find_compat. -/
def dt_find_compat_children : List DTNode → List Nat → Option DTNode
  | [], _ => none
  | c :: cs, compat =>
    match dt_find_compat c compat with
    | some found => some found
    | none => dt_find_compat_children cs compat

end

/-- The scan-and-overwrite part of dt_add_bin_prop: none when no property
has the given name, otherwise the list with the first match's data replaced
in place (its stored name pointer is kept, as in C). -/
def overwriteFirstProp : List FdtProperty → List Nat → List Nat →
    Option (List FdtProperty)
  | [], _, _ => none
  | p :: ps, name, data =>
    if p.name == name then some (⟨p.name, data⟩ :: ps)
    else
      match overwriteFirstProp ps name data with
      | some r => some (p :: r)
      | none => none

/-- dt_add_bin_prop from device_tree.c: overwrite the first property with a
matching name in place, or allocate a new one and insert it by
list_insert_after at the front of the property list. -/
def dt_add_bin_prop (node : DTNode) (name data : List Nat) : DTNode :=
  match overwriteFirstProp node.props name data with
  | some ps => node.withProps ps
  | none => node.withProps (⟨name, data⟩ :: node.props)

/-- dt_find_bin_prop from device_tree.c: data and size of the first property
with the given name; the outputs are initialized to NULL/0 before the scan,
so a miss returns (none, 0). -/
def dt_find_bin_prop (node : DTNode) (name : List Nat) :
    Option (List Nat) × Nat :=
  match node.props.find? (fun p => p.name == name) with
  | some p => (some p.data, p.data.length)
  | none => (none, 0)

/-- dt_find_string_prop from device_tree.c: the content pointer returned by
dt_find_bin_prop (NULL, i.e. none, for an absent property). -/
def dt_find_string_prop (node : DTNode) (name : List Nat) :
    Option (List Nat) :=
  (dt_find_bin_prop node name).1

/-- dt_write_int from device_tree.c: arbitrary-width big-endian store, least
significant byte placed last. -/
def dt_write_int : Nat → Nat → List Nat
  | _, 0 => []
  | src, len + 1 => dt_write_int (src / 256) len ++ [src % 256]

/-- The encoding loop of dt_add_reg_prop: per entry, the address as
addr_cells big-endian 32-bit words then the size as size_cells words.  The
array reads take the values mod 2^64 since the C parameters are uint64. -/
def regData : List Nat → List Nat → Nat → Nat → Nat → List Nat
  | _, _, 0, _, _ => []
  | addrs, sizes, count + 1, ac, sc =>
    dt_write_int (addrs.headD 0 % 2 ^ 64) (ac * 4) ++
      dt_write_int (sizes.headD 0 % 2 ^ 64) (sc * 4) ++
      regData addrs.tail sizes.tail count ac sc

/-- dt_add_reg_prop from device_tree.c: build the encoded address/size list
and upsert it as the property named reg. -/
def dt_add_reg_prop (node : DTNode) (addrs sizes : List Nat)
    (count ac sc : Nat) : DTNode :=
  dt_add_bin_prop node (strBytes "reg") (regData addrs sizes count ac sc)

/-! ## Spec-side definitions (formalizing the claims' language; these are
compared against the source-derived definitions, never used to define
them) -/

mutual

/-- Depth-first pre-order listing of a subtree: the node itself before its
children, children in list order (from the claim wording for find_compat). -/
def preorder : DTNode → List DTNode
  | .mk n ps cs => DTNode.mk n ps cs :: preorderList cs

/-- Pre-order listing of a forest, in list order. -/
def preorderList : List DTNode → List DTNode
  | [] => []
  | c :: cs => preorder c ++ preorderList cs

end

/-- Split a byte list into its NUL-separated segments (the segment after the
last NUL is the final, unterminated one; always nonempty as a list of
segments). -/
def splitSegs : List Nat → List (List Nat)
  | [] => [[]]
  | b :: bs =>
    if b = 0 then [] :: splitSegs bs
    else
      match splitSegs bs with
      | s :: ss => (b :: s) :: ss
      | [] => [[b]]

/-- Entry matching over the claim's NUL-separated segments: every segment
but the last is a NUL-terminated entry and matches by exact equality; the
final segment is unterminated and matches, when nonempty, exactly when it
equals the string up to the scanned length, i.e. is a prefix of it. -/
def entriesMatch (compat : List Nat) : List (List Nat) → Bool
  | [] => false
  | [lastSeg] => !lastSeg.isEmpty && lastSeg.isPrefixOf compat
  | e :: rest => (e == compat) || entriesMatch compat rest

/-- The claim's compatible-entry match: the compat string occurs among the
NUL-separated entries of the property value. -/
def specCompatMatch (compat d : List Nat) : Bool :=
  entriesMatch compat (splitSegs d)

/-- The chain of nodes dt_find_node creates for a path of fresh components:
each node carries one component and the next chain node as its only child. -/
def mkChain : List Nat → List (List Nat) → DTNode
  | comp, [] => DTNode.mk comp [] []
  | comp, c2 :: rest => DTNode.mk comp [] [mkChain c2 rest]

/-- The final component of a nonempty path. -/
def lastComp : List Nat → List (List Nat) → List Nat
  | c, [] => c
  | _, c2 :: rest => lastComp c2 rest

/-! ## Well-formedness of hand-built trees -/

/-- Well-formed property list: names are C strings (no NUL byte) and value
sizes stay clear of uint32 wrap-around in size32. -/
def propsWF : List FdtProperty → Bool
  | [] => true
  | p :: ps =>
    p.name.all (· != 0) && decide (p.data.length + 3 < 2 ^ 32) && propsWF ps

mutual

/-- Well-formed node: its name is a C string of uint32-safe length and its
properties and children are well-formed. -/
def nodeWF : DTNode → Bool
  | .mk name ps cs =>
    name.all (· != 0) && decide (name.length + 4 < 2 ^ 32) &&
      propsWF ps && nodesWF cs

/-- Well-formed child list. -/
def nodesWF : List DTNode → Bool
  | [] => true
  | c :: cs => nodeWF c && nodesWF cs

end

/-- Well-formed hand-built tree with a well-formed preserved header: the
header holds at least the 40 known bytes, its reserve_map_offset field
(byte 16) points right past the preserved prefix, the reserve-map entries
are genuine uint64 pairs with nonzero sizes, the nodes are well-formed, and
the flattened image fits a uint32 totalsize. -/
def treeWF (t : DeviceTree) : Bool :=
  decide (40 ≤ t.header.length) &&
    decide (be32at t.header 16 = t.header.length) &&
    t.reserve_map.all
      (fun e => decide (e.start < 2 ^ 64) && decide (0 < e.size) &&
        decide (e.size < 2 ^ 64)) &&
    nodeWF t.root && decide (dt_flat_size t < 2 ^ 32)

/-! ## Fuel bounds for the unflattening recursion -/

mutual

/-- Fuel sufficient for fdt_unflatten_node on the encoding of a node. -/
def nodeFuel : DTNode → Nat
  | .mk _ ps cs => 1 + max (ps.length + 1) (childFuel cs)

/-- Fuel sufficient for unflatten_children on the encoding of a forest. -/
def childFuel : List DTNode → Nat
  | [] => 1
  | c :: cs => 1 + max (nodeFuel c) (childFuel cs)

end

/-- A concrete 40-byte header whose reserve_map_offset field (byte 16)
holds 40, used by the witnesses below. -/
def sampleHeader : List Nat :=
  List.replicate 16 0 ++ [0, 0, 0, 40] ++ List.replicate 20 0

/-- A concrete well-formed tree with one reserve-map entry, one property
and one child node, used by the witnesses below. -/
def sampleTree : DeviceTree :=
  ⟨sampleHeader, [⟨4096, 512⟩],
   DTNode.mk [] [⟨strBytes "x", [1, 2, 3]⟩] [DTNode.mk (strBytes "a") [] []]⟩

/-! ## Basic lemmas -/

theorem beqList_iff (a b : List Nat) : (a == b) = true ↔ a = b := by
  simp

theorem dt_write_int_length (src len : Nat) :
    (dt_write_int src len).length = len := by
  induction len generalizing src with
  | zero => simp [dt_write_int]
  | succ k ih => rw [dt_write_int]; simp [ih]

theorem regData_length (addrs sizes : List Nat) (count ac sc : Nat) :
    (regData addrs sizes count ac sc).length = (ac + sc) * 4 * count := by
  induction count generalizing addrs sizes with
  | zero => simp [regData]
  | succ k ih =>
    rw [regData]
    simp [dt_write_int_length, ih]
    ring

theorem find?_name_none {ps : List FdtProperty} {name : List Nat}
    (h : ∀ q ∈ ps, q.name ≠ name) :
    ps.find? (fun p => p.name == name) = none := by
  rw [List.find?_eq_none]
  intro x hx
  simp [h x hx]

theorem find?_name_first (l1 : List FdtProperty) (p : FdtProperty)
    (l2 : List FdtProperty) (name : List Nat)
    (h1 : ∀ q ∈ l1, q.name ≠ name) (hp : p.name = name) :
    (l1 ++ p :: l2).find? (fun p => p.name == name) = some p := by
  induction l1 with
  | nil => simp [List.find?_cons, hp]
  | cons q l1 ih =>
    have hq : q.name ≠ name := h1 q (by simp)
    simp only [List.cons_append, List.find?_cons]
    have : (q.name == name) = false := by simp [hq]
    rw [this]
    exact ih fun x hx => h1 x (by simp [hx])

theorem overwriteFirstProp_none {ps : List FdtProperty} {name data : List Nat}
    (h : ∀ q ∈ ps, q.name ≠ name) :
    overwriteFirstProp ps name data = none := by
  induction ps with
  | nil => rw [overwriteFirstProp]
  | cons p ps ih =>
    rw [overwriteFirstProp]
    have : (p.name == name) = false := by simp [h p (by simp)]
    rw [this]
    simp only [Bool.false_eq_true, if_false]
    rw [ih fun x hx => h x (by simp [hx])]

theorem overwriteFirstProp_first {l1 l2 : List FdtProperty} {p : FdtProperty}
    {name data : List Nat} (h1 : ∀ q ∈ l1, q.name ≠ name) (hp : p.name = name) :
    overwriteFirstProp (l1 ++ p :: l2) name data =
      some (l1 ++ { name := p.name, data := data } :: l2) := by
  induction l1 with
  | nil => simp [overwriteFirstProp, hp]
  | cons q l1 ih =>
    have hq : q.name ≠ name := h1 q (by simp)
    simp only [List.cons_append, overwriteFirstProp]
    have : (q.name == name) = false := by simp [hq]
    rw [this]
    simp only [Bool.false_eq_true, if_false, List.append_eq]
    rw [ih fun x hx => h1 x (by simp [hx])]

/-- Claim C3: dt_add_bin_prop is an upsert: with a property of the given
name present, the first one has its data overwritten in place, preserving
the property count, the name order, and (when the name was unique) its
uniqueness; with no such property, a new one is prepended to the front of
the property list. -/
theorem claim_C3 (nm : List Nat) (ps : List FdtProperty) (cs : List DTNode)
    (name data : List Nat) :
    (∀ l1 p l2, ps = l1 ++ p :: l2 → (∀ q ∈ l1, q.name ≠ name) →
      p.name = name →
      dt_add_bin_prop (DTNode.mk nm ps cs) name data =
        DTNode.mk nm (l1 ++ { name := p.name, data := data } :: l2) cs ∧
      (l1 ++ { name := p.name, data := data } :: l2).length = ps.length ∧
      (l1 ++ { name := p.name, data := data } :: l2).map FdtProperty.name =
        ps.map FdtProperty.name ∧
      (ps.countP (fun q => q.name == name) = 1 →
        (l1 ++ { name := p.name, data := data } :: l2).countP
          (fun q => q.name == name) = 1)) ∧
    ((∀ q ∈ ps, q.name ≠ name) →
      dt_add_bin_prop (DTNode.mk nm ps cs) name data =
        DTNode.mk nm ({ name := name, data := data } :: ps) cs) := by
  constructor
  · intro l1 p l2 hps h1 hp
    subst hps
    refine ⟨?_, by simp, by simp [hp], fun hc => ?_⟩
    · rw [dt_add_bin_prop]
      simp only [DTNode.props]
      rw [overwriteFirstProp_first h1 hp]
      rfl
    · rw [List.countP_append] at hc ⊢
      simp only [List.countP_cons] at hc ⊢
      simp [hp] at hc ⊢
      omega
  · intro h
    rw [dt_add_bin_prop]
    simp only [DTNode.props]
    rw [overwriteFirstProp_none h]
    rfl

/-- Witness for claim C3 at a concrete node: upserting the name x twice
leaves one property named x carrying the second value. -/
theorem claim_C3_witness :
    ([] : List FdtProperty) = [] ∧
    dt_add_bin_prop
        (DTNode.mk [] [{ name := strBytes "x", data := [1, 2, 3, 4] }] [])
        (strBytes "x") [5, 6, 7, 8, 9, 10, 11, 12] =
      DTNode.mk [] [{ name := strBytes "x", data := [5, 6, 7, 8, 9, 10, 11, 12] }] [] := by
  refine ⟨rfl, ?_⟩
  have h := (claim_C3 [] [{ name := strBytes "x", data := [1, 2, 3, 4] }] []
    (strBytes "x") [5, 6, 7, 8, 9, 10, 11, 12]).1
    [] { name := strBytes "x", data := [1, 2, 3, 4] } [] rfl
    (by intro q hq; cases hq) rfl
  exact h.1

/-- Claim C10: dt_find_bin_prop initializes its outputs to NULL/0, so an
absent name yields (none, 0) and dt_find_string_prop yields none; a present
name yields the first property with that name in list order. -/
theorem claim_C10 (nm : List Nat) (ps : List FdtProperty) (cs : List DTNode)
    (name : List Nat) :
    ((∀ q ∈ ps, q.name ≠ name) →
      dt_find_bin_prop (DTNode.mk nm ps cs) name = (none, 0) ∧
      dt_find_string_prop (DTNode.mk nm ps cs) name = none) ∧
    (∀ l1 p l2, ps = l1 ++ p :: l2 → (∀ q ∈ l1, q.name ≠ name) →
      p.name = name →
      dt_find_bin_prop (DTNode.mk nm ps cs) name = (some p.data, p.data.length)) := by
  constructor
  · intro h
    have : dt_find_bin_prop (DTNode.mk nm ps cs) name = (none, 0) := by
      rw [dt_find_bin_prop]
      simp only [DTNode.props]
      rw [find?_name_none h]
    exact ⟨this, by rw [dt_find_string_prop, this]⟩
  · intro l1 p l2 hps h1 hp
    subst hps
    rw [dt_find_bin_prop]
    simp only [DTNode.props]
    rw [find?_name_first l1 p l2 name h1 hp]

/-- Witness for claim C10 at a concrete node, exercising both the absent
and the present case. -/
theorem claim_C10_witness :
    (dt_find_bin_prop (DTNode.mk [] [{ name := [120], data := [7] }] []) [121] =
        (none, 0) ∧
      dt_find_string_prop (DTNode.mk [] [{ name := [120], data := [7] }] []) [121] =
        none) ∧
    dt_find_bin_prop (DTNode.mk [] [{ name := [120], data := [7] }] []) [120] =
      (some [7], 1) := by
  constructor
  · exact (claim_C10 [] [{ name := [120], data := [7] }] [] [121]).1
      (by intro q hq; simp at hq; subst hq; decide)
  · exact (claim_C10 [] [{ name := [120], data := [7] }] [] [120]).2
      [] { name := [120], data := [7] } [] rfl (by intro q hq; cases hq) rfl

/-- Claim C7: fdt_next_property consumes 0 bytes and produces nothing
exactly when the 32-bit big-endian token at the offset is not the property
token; on success it consumes 12 + round-up(size, 4) bytes, resolves the
name through the strings-block offset stored in the header plus the
property's stored name offset (uint32 addition), points the data at the
declared size bytes following the 12-byte token header inside the blob, and
reports the raw declared size. -/
theorem claim_C7 (blob : List Nat) (offset : Nat) :
    (be32at blob offset ≠ TokenProperty →
      fdt_next_property blob offset = (none, 0)) ∧
    (be32at blob offset = TokenProperty →
      fdt_next_property blob offset =
        (some { name := readCString blob
                  ((be32at blob (offset + 8) + be32at blob 12) % 2 ^ 32),
                data := (blob.drop (offset + 12)).take (be32at blob (offset + 4)) },
         (3 + size32 (be32at blob (offset + 4))) * 4)) ∧
    (∀ s, (3 + size32 s) * 4 = 12 + 4 * size32 s) := by
  refine ⟨fun h => by rw [fdt_next_property, if_pos h], fun h => ?_,
    fun s => by ring⟩
  rw [fdt_next_property, if_neg (by simp [h])]

/-- Witness for claim C7: a concrete 20-byte blob holding one property
token with a 2-byte value and a strings block at byte 16, exercising both
the success case (offset 0) and the failure case (offset 16). -/
theorem claim_C7_witness :
    fdt_next_property
        [0, 0, 0, 3, 0, 0, 0, 2, 0, 0, 0, 0, 0, 0, 0, 16, 65, 66, 0, 0] 0 =
      (some { name := [65, 66], data := [0, 0] }, 16) ∧
    fdt_next_property
        [0, 0, 0, 3, 0, 0, 0, 2, 0, 0, 0, 0, 0, 0, 0, 16, 65, 66, 0, 0] 16 =
      (none, 0) := by
  constructor
  · have h := (claim_C7
      [0, 0, 0, 3, 0, 0, 0, 2, 0, 0, 0, 0, 0, 0, 0, 16, 65, 66, 0, 0] 0).2.1
      (by decide)
    rw [h]
    decide
  · exact (claim_C7
      [0, 0, 0, 3, 0, 0, 0, 2, 0, 0, 0, 0, 0, 0, 0, 16, 65, 66, 0, 0] 16).1
      (by decide)

theorem exists_first_named {ps : List FdtProperty} {name : List Nat}
    (h : ∃ q ∈ ps, q.name = name) :
    ∃ l1 p l2, ps = l1 ++ p :: l2 ∧ (∀ q ∈ l1, q.name ≠ name) ∧
      p.name = name := by
  induction ps with
  | nil => simp at h
  | cons p ps ih =>
    by_cases hp : p.name = name
    · exact ⟨[], p, ps, rfl, by simp, hp⟩
    · have h2 : ∃ q ∈ ps, q.name = name := by
        obtain ⟨q, hq, hqn⟩ := h
        rw [List.mem_cons] at hq
        rcases hq with hq | hq
        · subst hq; exact absurd hqn hp
        · exact ⟨q, hq, hqn⟩
      obtain ⟨l1, p2, l2, he, h1, hp2⟩ := ih h2
      refine ⟨p :: l1, p2, l2, by rw [he]; rfl, ?_, hp2⟩
      intro q hq
      rw [List.mem_cons] at hq
      rcases hq with hq | hq
      · subst hq; exact hp
      · exact h1 q hq

theorem find_after_add (node : DTNode) (name data : List Nat) :
    dt_find_bin_prop (dt_add_bin_prop node name data) name =
      (some data, data.length) := by
  obtain ⟨nm, ps, cs⟩ := node
  by_cases h : ∃ q ∈ ps, q.name = name
  · obtain ⟨l1, p, l2, he, h1, hp⟩ := exists_first_named h
    subst he
    rw [dt_add_bin_prop]
    simp only [DTNode.props]
    rw [overwriteFirstProp_first h1 hp]
    simp only [DTNode.withProps, dt_find_bin_prop, DTNode.props]
    rw [find?_name_first l1 { name := p.name, data := data } l2 name h1 hp]
  · push_neg at h
    rw [dt_add_bin_prop]
    simp only [DTNode.props]
    rw [overwriteFirstProp_none h]
    simp only [DTNode.withProps, dt_find_bin_prop, DTNode.props,
      List.find?_cons, beq_self_eq_true]

/-- Claim C8: dt_add_reg_prop stores a property named reg of exactly
(addr_cells + size_cells) * 4 * count bytes, each entry being the address as
addr_cells big-endian 32-bit words followed by the size as size_cells words;
in particular one entry with address 0x1000 and size 0x200 under
addr_cells = 2, size_cells = 1 gives the 12 bytes
00 00 00 00 00 00 10 00 00 00 02 00. -/
theorem claim_C8 (node : DTNode) (addrs sizes : List Nat) (count ac sc : Nat) :
    (regData addrs sizes count ac sc).length = (ac + sc) * 4 * count ∧
    dt_find_bin_prop (dt_add_reg_prop node addrs sizes count ac sc)
        (strBytes "reg") =
      (some (regData addrs sizes count ac sc), (ac + sc) * 4 * count) ∧
    regData [4096] [512] 1 2 1 = [0, 0, 0, 0, 0, 0, 16, 0, 0, 0, 2, 0] := by
  refine ⟨regData_length addrs sizes count ac sc, ?_, by decide⟩
  rw [dt_add_reg_prop, find_after_add, regData_length]

theorem findFirstNamed_none {cs : List DTNode} {comp : List Nat}
    (h : ∀ c ∈ cs, c.name ≠ comp) : findFirstNamed cs comp = none := by
  induction cs with
  | nil => rw [findFirstNamed]
  | cons c cs ih =>
    rw [findFirstNamed]
    have hb : (c.name == comp) = false := by simp [h c (by simp)]
    rw [hb]
    simp only [Bool.false_eq_true, if_false]
    exact ih fun x hx => h x (by simp [hx])

/-- Claim C6: dt_find_node with an empty path returns the starting node
itself for either create flag, and with create false it returns not-found
and leaves the subtree unmodified when the first component matches no
child. -/
theorem claim_C6 (parent : DTNode) (cells : Option Nat × Option Nat)
    (create : Bool) :
    dt_find_node parent [] cells create =
      (some parent, parent, dt_read_cell_props parent.props cells) ∧
    (∀ comp rest, (∀ c ∈ parent.children, c.name ≠ comp) →
      dt_find_node parent (comp :: rest) cells false =
        (none, parent, dt_read_cell_props parent.props cells)) := by
  constructor
  · rw [dt_find_node]
  · intro comp rest h
    rw [dt_find_node]
    rw [findFirstNamed_none h]
    rfl

/-- Witness for claim C6 at a concrete node with one child named c and the
unmatched component a. -/
theorem claim_C6_witness :
    dt_find_node (DTNode.mk [] [] [DTNode.mk [99] [] []]) [] (none, none)
        true =
      (some (DTNode.mk [] [] [DTNode.mk [99] [] []]),
       DTNode.mk [] [] [DTNode.mk [99] [] []], (none, none)) ∧
    dt_find_node (DTNode.mk [] [] [DTNode.mk [99] [] []]) [[97]] (none, none)
        false =
      (none, DTNode.mk [] [] [DTNode.mk [99] [] []], (none, none)) := by
  have h := claim_C6 (DTNode.mk [] [] [DTNode.mk [99] [] []]) (none, none) true
  have h2 := claim_C6 (DTNode.mk [] [] [DTNode.mk [99] [] []]) (none, none) false
  constructor
  · rw [h.1]; rfl
  · rw [h2.2 [97] [] (by intro c hc; simp [DTNode.children] at hc; subst hc; decide)]
    rfl

/-! ## Claim C9: fdt_skip_node consumes the same bytes as
fdt_unflatten_node -/

theorem skip_props_eq (blob : List Nat) :
    ∀ fuel offset, skip_props blob fuel offset =
      (unflatten_props blob fuel offset).2 := by
  intro fuel
  induction fuel with
  | zero => intro offset; rw [skip_props, unflatten_props]
  | succ k ih =>
    intro offset
    rw [skip_props, unflatten_props]
    cases hp : fdt_next_property blob offset with
    | mk o size =>
      cases o with
      | none => rfl
      | some p => simp only []; rw [ih]

theorem skip_eq_unflatten (blob : List Nat) :
    ∀ fuel, (∀ offset, fdt_skip_node blob fuel offset =
        (fdt_unflatten_node blob fuel offset).2) ∧
      (∀ offset, skip_children blob fuel offset =
        (unflatten_children blob fuel offset).2) := by
  intro fuel
  induction fuel with
  | zero =>
    exact ⟨fun offset => by rw [fdt_skip_node, fdt_unflatten_node],
      fun offset => by rw [skip_children, unflatten_children]⟩
  | succ k ih =>
    constructor
    · intro offset
      rw [fdt_skip_node, fdt_unflatten_node]
      cases hn : fdt_node_name blob offset with
      | mk o nsize =>
        cases o with
        | none => rfl
        | some name =>
          simp only []
          rw [skip_props_eq, ih.2]
    · intro offset
      rw [skip_children, unflatten_children]
      cases hu : fdt_unflatten_node blob k offset with
      | mk o size =>
        cases o with
        | none =>
          have h0 : size = 0 := by
            cases k with
            | zero => rw [fdt_unflatten_node] at hu; exact (Prod.mk.injEq _ _ _ _ ▸ hu).2.symm
            | succ m =>
              rw [fdt_unflatten_node] at hu
              cases hn : fdt_node_name blob offset with
              | mk o2 nsize =>
                cases o2 with
                | none =>
                  rw [hn] at hu
                  exact (Prod.mk.injEq _ _ _ _ ▸ hu).2.symm
                | some nm =>
                  rw [hn] at hu
                  simp only [] at hu
                  exact absurd (Prod.mk.injEq _ _ _ _ ▸ hu).1 (by simp)
          subst h0
          rw [ih.1, hu]
        | some c =>
          have hpos : 0 < size := by
            cases k with
            | zero => rw [fdt_unflatten_node] at hu; cases (Prod.mk.injEq _ _ _ _ ▸ hu).1
            | succ m =>
              rw [fdt_unflatten_node] at hu
              cases hn : fdt_node_name blob offset with
              | mk o2 nsize =>
                cases o2 with
                | none =>
                  rw [hn] at hu
                  cases (Prod.mk.injEq _ _ _ _ ▸ hu).1
                | some nm =>
                  rw [hn] at hu
                  simp only [] at hu
                  have := (Prod.mk.injEq _ _ _ _ ▸ hu).2
                  omega
          rw [ih.1, hu]
          simp only []
          obtain ⟨size2, rfl⟩ : ∃ s2, size = s2 + 1 :=
            ⟨size - 1, by omega⟩
          simp only []
          rw [ih.2]

/-- Claim C9: for every blob, fuel and offset, skipping a node and
unflattening it consume exactly the same number of structure-block bytes,
and both report 0 consumed (no node) when the token at the offset is not a
begin-node token. -/
theorem claim_C9 (blob : List Nat) (fuel offset : Nat) :
    fdt_skip_node blob fuel offset =
      (fdt_unflatten_node blob fuel offset).2 ∧
    (be32at blob offset ≠ TokenBeginNode →
      fdt_skip_node blob fuel offset = 0 ∧
      fdt_unflatten_node blob fuel offset = (none, 0)) := by
  refine ⟨(skip_eq_unflatten blob fuel).1 offset, fun h => ?_⟩
  have hu : fdt_unflatten_node blob fuel offset = (none, 0) := by
    cases fuel with
    | zero => rw [fdt_unflatten_node]
    | succ k =>
      rw [fdt_unflatten_node]
      rw [show fdt_node_name blob offset = (none, 0) from by
        rw [fdt_node_name, if_pos h]]
  exact ⟨by rw [(skip_eq_unflatten blob fuel).1 offset, hu], hu⟩

/-- Witness for claim C9 on a concrete blob: a one-node structure block at
offset 0 and a non-begin-node token at offset 12. -/
theorem claim_C9_witness :
    fdt_skip_node [0, 0, 0, 1, 97, 0, 0, 0, 0, 0, 0, 2] 12 0 =
      (fdt_unflatten_node [0, 0, 0, 1, 97, 0, 0, 0, 0, 0, 0, 2] 12 0).2 ∧
    fdt_skip_node [0, 0, 0, 1, 97, 0, 0, 0, 0, 0, 0, 2] 12 8 = 0 ∧
    fdt_unflatten_node [0, 0, 0, 1, 97, 0, 0, 0, 0, 0, 0, 2] 12 8 =
      (none, 0) := by
  refine ⟨(claim_C9 [0, 0, 0, 1, 97, 0, 0, 0, 0, 0, 0, 2] 12 0).1, ?_⟩
  exact (claim_C9 [0, 0, 0, 1, 97, 0, 0, 0, 0, 0, 0, 2] 12 8).2 (by decide)

/-! ## Claim C4: node creation in dt_find_node -/

/-- Counterexample to claim C4 as stated: starting from a parent with one
existing child named c (byte 99), looking up the fresh component a (byte
97) with create true leaves the child list [a, c] - the new child is at the
front, not appended at the back as the claim asserts. -/
theorem claim_C4_counterexample :
    ((dt_find_node (DTNode.mk [] [] [DTNode.mk [99] [] []]) [[97]]
        (none, none) true).2.1).children.map DTNode.name = [[97], [99]] ∧
    [[97], [99]] ≠ [[99], [97]] := by
  exact ⟨rfl, by decide⟩

theorem find_node_chain :
    ∀ (rest : List (List Nat)) (comp : List Nat)
      (cells : Option Nat × Option Nat),
      dt_find_node (DTNode.mk comp [] []) rest cells true =
        (some (DTNode.mk (lastComp comp rest) [] []), mkChain comp rest,
         cells) := by
  intro rest
  induction rest with
  | nil =>
    intro comp cells
    rw [dt_find_node]
    rfl
  | cons c2 r ih =>
    intro comp cells
    rw [dt_find_node]
    simp only [DTNode.props, DTNode.children, dt_read_cell_props,
      findFirstNamed]
    rw [ih c2]
    rfl

/-- Claim C4 as amended: when create is true and the first path component
matches no child, dt_find_node creates a chain of nodes, one per remaining
component, each carrying just its component as name (no properties, then
only the next chain node as child), inserts the chain head at the front of
the starting node's child list (not at the back), and returns the node of
the final component; the cell values are those read from the starting
node's own properties, as the created nodes have none. -/
theorem claim_C4 (nm : List Nat) (ps : List FdtProperty) (cs : List DTNode)
    (comp : List Nat) (rest : List (List Nat))
    (cells : Option Nat × Option Nat) (h : ∀ c ∈ cs, c.name ≠ comp) :
    dt_find_node (DTNode.mk nm ps cs) (comp :: rest) cells true =
      (some (DTNode.mk (lastComp comp rest) [] []),
       DTNode.mk nm ps (mkChain comp rest :: cs),
       dt_read_cell_props ps cells) := by
  rw [dt_find_node]
  simp only [DTNode.props, DTNode.children]
  rw [findFirstNamed_none h]
  simp only []
  rw [find_node_chain rest comp]
  rw [if_pos trivial]
  rfl

/-- Witness for the amended claim C4: from a root with one child named c,
the path [a, b] creates a beneath the root (at the front of its child
list), b beneath a, and returns the new b node. -/
theorem claim_C4_witness :
    dt_find_node (DTNode.mk [] [] [DTNode.mk [99] [] []])
        [[97], [98]] (none, none) true =
      (some (DTNode.mk [98] [] []),
       DTNode.mk [] []
         [DTNode.mk [97] [] [DTNode.mk [98] [] []], DTNode.mk [99] [] []],
       (none, none)) := by
  exact claim_C4 [] [] [DTNode.mk [99] [] []] [97] [[98]] (none, none)
    (by intro c hc; simp at hc; subst hc; decide)

/-! ## Claim C5: dt_find_compat is the first pre-order entry match -/

theorem strncmp_unterm :
    ∀ (s compat : List Nat), (∀ x ∈ s, x ≠ 0) → (∀ x ∈ compat, x ≠ 0) →
      strncmpEq (compat ++ [0]) s s.length = s.isPrefixOf compat := by
  intro s
  induction s with
  | nil =>
    intro compat _ _
    rw [List.length_nil, strncmpEq]
    simp [List.isPrefixOf]
  | cons b bs ih =>
    intro compat hs hc
    have hb : b ≠ 0 := hs b (by simp)
    rw [List.length_cons, strncmpEq]
    cases compat with
    | nil =>
      rw [if_pos (by simpa using (Ne.symm hb))]
      rfl
    | cons c cs =>
      have hcne : c ≠ 0 := hc c (by simp)
      by_cases hcb : c = b
      · subst hcb
        rw [if_neg (by simp)]
        rw [if_neg (by simpa using hcne)]
        show strncmpEq (cs ++ [0]) bs bs.length = _
        rw [ih cs (fun x hx => hs x (by simp [hx])) (fun x hx => hc x (by simp [hx]))]
        show _ = (c == c && bs.isPrefixOf cs)
        simp
      · rw [if_pos (by simpa using hcb)]
        show false = ((b == c) && bs.isPrefixOf cs)
        have : (b == c) = false := by simp; exact fun h => hcb h.symm
        rw [this, Bool.false_and]

theorem strncmp_term :
    ∀ (seg compat rest : List Nat) (n : Nat), (∀ x ∈ seg, x ≠ 0) →
      (∀ x ∈ compat, x ≠ 0) → seg.length < n →
      strncmpEq (compat ++ [0]) (seg ++ 0 :: rest) n = decide (compat = seg) := by
  intro seg
  induction seg with
  | nil =>
    intro compat rest n _ hc hn
    cases n with
    | zero => omega
    | succ m =>
      rw [strncmpEq]
      cases compat with
      | nil => rw [if_neg (by simp)]; rfl
      | cons c cs =>
        have hcne : c ≠ 0 := hc c (by simp)
        rw [if_pos (by simpa using hcne)]
        simp
  | cons a at2 ih =>
    intro compat rest n hs hc hn
    have ha : a ≠ 0 := hs a (by simp)
    cases n with
    | zero => omega
    | succ m =>
      rw [strncmpEq]
      cases compat with
      | nil =>
        rw [if_pos (by simpa using (Ne.symm ha))]
        simp
      | cons c cs =>
        have hcne : c ≠ 0 := hc c (by simp)
        by_cases hca : c = a
        · subst hca
          rw [if_neg (by simp)]
          rw [if_neg (by simpa using hcne)]
          show strncmpEq (cs ++ [0]) (at2 ++ 0 :: rest) m = _
          rw [ih cs rest m (fun x hx => hs x (by simp [hx]))
            (fun x hx => hc x (by simp [hx])) (by simpa using hn)]
          simp
        · rw [if_pos (by simpa using hca)]
          have : ¬(c :: cs = a :: at2) := by simp; intro h; exact absurd h hca
          simp [this]

theorem takeWhile_append_ne (seg rest : List Nat)
    (h : ∀ x ∈ seg, x ≠ 0) :
    (seg ++ 0 :: rest).takeWhile (· != 0) = seg := by
  induction seg with
  | nil => simp [List.takeWhile]
  | cons a at2 ih =>
    have ha : (a != 0) = true := by simpa using h a (by simp)
    rw [List.cons_append, List.takeWhile_cons, ha]
    rw [if_pos rfl, ih fun x hx => h x (by simp [hx])]

theorem dropWhile_head_zero :
    ∀ (d : List Nat) (b : Nat) (tl : List Nat),
      d.dropWhile (· != 0) = b :: tl → b = 0 := by
  intro d
  induction d with
  | nil => intro b tl h; cases h
  | cons a at2 ih =>
    intro b tl h
    rw [List.dropWhile] at h
    by_cases ha : a = 0
    · subst ha
      simp at h
      exact h.1.symm
    · have : (a != 0) = true := by simpa using ha
      rw [this] at h
      exact ih b tl h

theorem allNe_of_takeWhile_len (d : List Nat)
    (h : (d.takeWhile (· != 0)).length = d.length) : ∀ x ∈ d, x ≠ 0 := by
  have hpre : d.takeWhile (· != 0) <+: d := List.takeWhile_prefix _
  have heq : d.takeWhile (· != 0) = d := hpre.eq_of_length h
  intro x hx
  rw [← heq] at hx
  simpa using List.mem_takeWhile_imp hx

theorem splitSegs_ne_nil (d : List Nat) : splitSegs d ≠ [] := by
  cases d with
  | nil => rw [splitSegs]; simp
  | cons b bs =>
    rw [splitSegs]
    by_cases hb : b = 0
    · rw [if_pos hb]; simp
    · rw [if_neg hb]
      cases h : splitSegs bs with
      | nil => simp
      | cons s ss => simp

theorem splitSegs_noNul (d : List Nat) (h : ∀ x ∈ d, x ≠ 0) :
    splitSegs d = [d] := by
  induction d with
  | nil => rfl
  | cons b bs ih =>
    have hb : b ≠ 0 := h b (by simp)
    rw [splitSegs, if_neg hb, ih fun x hx => h x (by simp [hx])]

theorem splitSegs_append (seg rest : List Nat) (h : ∀ x ∈ seg, x ≠ 0) :
    splitSegs (seg ++ 0 :: rest) = seg :: splitSegs rest := by
  induction seg with
  | nil => simp [splitSegs]
  | cons a at2 ih =>
    have ha : a ≠ 0 := h a (by simp)
    rw [List.cons_append, splitSegs, if_neg ha,
      ih fun x hx => h x (by simp [hx])]

theorem spec_nil (compat : List Nat) : specCompatMatch compat [] = false := rfl

theorem spec_noNul (compat d : List Nat) (h : ∀ x ∈ d, x ≠ 0) :
    specCompatMatch compat d = (!d.isEmpty && d.isPrefixOf compat) := by
  rw [specCompatMatch, splitSegs_noNul d h]
  rfl

theorem spec_append (compat seg rest : List Nat) (h : ∀ x ∈ seg, x ≠ 0) :
    specCompatMatch compat (seg ++ 0 :: rest) =
      ((seg == compat) || specCompatMatch compat rest) := by
  rw [specCompatMatch, splitSegs_append seg rest h, specCompatMatch]
  cases hs : splitSegs rest with
  | nil => exact absurd hs (splitSegs_ne_nil rest)
  | cons s ss => rfl

theorem compatLoop_spec (compat : List Nat) (hc : ∀ x ∈ compat, x ≠ 0) :
    ∀ fuel d, d.length ≤ fuel →
      compatLoop compat fuel d d.length = specCompatMatch compat d := by
  intro fuel
  induction fuel with
  | zero =>
    intro d hd
    have hdnil : d = [] := by
      cases d with
      | nil => rfl
      | cons b bs => simp at hd
    subst hdnil
    rw [compatLoop, spec_nil]
  | succ k ih =>
    intro d hd
    rw [compatLoop]
    by_cases hnil : d = []
    · subst hnil
      rw [if_pos List.length_nil, spec_nil]
    · rw [if_neg (by simpa using hnil)]
      by_cases hterm : (d.takeWhile (· != 0)).length = d.length
      · -- no NUL byte in d
        have hfree : ∀ x ∈ d, x ≠ 0 := allNe_of_takeWhile_len d hterm
        rw [strncmp_unterm d compat hfree hc]
        rw [spec_noNul compat d hfree]
        cases hm : d.isPrefixOf compat with
        | true => simp [hnil]
        | false =>
          rw [if_neg (by simp)]
          have hlen : strnlen d d.length = d.length := by
            rw [strnlen, List.take_length, hterm]
          rw [hlen, if_pos (by omega)]
          simp [hnil]
      · -- d = seg ++ 0 :: rest with seg NUL-free
        set seg := d.takeWhile (· != 0) with hsegdef
        have hseg : ∀ x ∈ seg, x ≠ 0 := by
          intro x hx
          simpa using List.mem_takeWhile_imp hx
        obtain ⟨rest, hd2⟩ : ∃ rest, d = seg ++ 0 :: rest := by
          cases hdw : d.dropWhile (· != 0) with
          | nil =>
            exfalso
            have := List.takeWhile_append_dropWhile (p := (· != 0)) (l := d)
            rw [hdw, List.append_nil] at this
            exact hterm (by rw [hsegdef, this])
          | cons b tl =>
            have hb := dropWhile_head_zero d b tl hdw
            subst hb
            refine ⟨tl, ?_⟩
            have := List.takeWhile_append_dropWhile (p := (· != 0)) (l := d)
            rw [hdw] at this
            exact this.symm
        have hseglt : seg.length < d.length := by
          have : seg.length ≤ d.length := by
            rw [hsegdef]
            exact (List.takeWhile_prefix _).length_le
          omega
        rw [show d = seg ++ 0 :: rest from hd2] at hseglt ⊢
        rw [strncmp_term seg compat rest (seg ++ 0 :: rest).length hseg hc hseglt]
        rw [spec_append compat seg rest hseg]
        cases hcs : decide (compat = seg) with
        | true =>
          rw [if_pos rfl]
          have : compat = seg := of_decide_eq_true hcs
          subst this
          simp
        | false =>
          rw [if_neg (by simp)]
          have hne : ¬(compat = seg) := of_decide_eq_false hcs
          have hbeq : (seg == compat) = false := by
            simp
            intro h2
            exact hne h2.symm
          have hstrn : strnlen (seg ++ 0 :: rest) (seg ++ 0 :: rest).length
              = seg.length := by
            rw [strnlen, List.take_length, takeWhile_append_ne seg rest hseg]
          simp only [hstrn]
          by_cases hrest : rest = []
          · subst hrest
            rw [if_pos (by simp)]
            rw [hbeq, spec_nil]
            rfl
          · have hrl : rest.length ≠ 0 := by simpa using hrest
            rw [if_neg (by simp only [List.length_append, List.length_cons]; omega)]
            have hdrop : (seg ++ 0 :: rest).drop (seg.length + 1) = rest := by
              rw [show seg.length + 1 = (seg ++ [0]).length by simp]
              rw [show seg ++ 0 :: rest = (seg ++ [0]) ++ rest by simp]
              exact List.drop_left _ _
            have hsub : (seg ++ 0 :: rest).length - (seg.length + 1) =
                rest.length := by
              simp only [List.length_append, List.length_cons]; omega
            rw [hdrop, hsub]
            have hdl : d.length = seg.length + rest.length + 1 := by
              rw [hd2]; simp only [List.length_append, List.length_cons]; omega
            rw [ih rest (by omega)]
            rw [hbeq, Bool.false_or]

theorem find?_append_eq {α : Type} (p : α → Bool) (l1 l2 : List α) :
    (l1 ++ l2).find? p =
      match l1.find? p with
      | some a => some a
      | none => l2.find? p := by
  induction l1 with
  | nil => rfl
  | cons a l1 ih =>
    rw [List.cons_append, List.find?_cons, List.find?_cons]
    cases p a with
    | true => rfl
    | false => rw [ih]

theorem find?_congr {α : Type} (p q : α → Bool) (l : List α)
    (h : ∀ a, p a = q a) : l.find? p = l.find? q := by
  induction l with
  | nil => rfl
  | cons a l ih =>
    rw [List.find?_cons, List.find?_cons, h a, ih]

mutual

theorem find_compat_preorder :
    ∀ (n : DTNode) (compat : List Nat),
      dt_find_compat n compat =
        (preorder n).find? (fun nd => dt_check_compat_match nd compat)
  | .mk nm ps cs, compat => by
    rw [dt_find_compat, preorder, List.find?_cons]
    cases h : dt_check_compat_match (DTNode.mk nm ps cs) compat with
    | true => rw [if_pos rfl]
    | false =>
      rw [if_neg (by simp)]
      exact find_compat_children_preorder cs compat

theorem find_compat_children_preorder :
    ∀ (cs : List DTNode) (compat : List Nat),
      dt_find_compat_children cs compat =
        (preorderList cs).find? (fun nd => dt_check_compat_match nd compat)
  | [], _ => by rw [dt_find_compat_children, preorderList, List.find?_nil]
  | c :: cs, compat => by
    rw [dt_find_compat_children, preorderList, find?_append_eq]
    rw [← find_compat_preorder c compat]
    cases h : dt_find_compat c compat with
    | some found => rfl
    | none => exact find_compat_children_preorder cs compat

end

/-- Claim C5: for a compat argument that is a genuine C string (no NUL
byte), dt_find_compat returns the first node in depth-first pre-order (the
node itself before its children, children in list order) whose first
property named compatible contains the string among its NUL-separated
entries (exact entry equality, with the final unterminated segment matching
up to the scanned length), and none when no node of the subtree matches. -/
theorem claim_C5 (parent : DTNode) (compat : List Nat)
    (hc : ∀ x ∈ compat, x ≠ 0) :
    dt_find_compat parent compat =
      (preorder parent).find? (fun nd =>
        match nd.props.find? (fun p => p.name == strBytes "compatible") with
        | some p => specCompatMatch compat p.data
        | none => false) := by
  rw [find_compat_preorder]
  refine find?_congr _ _ _ fun nd => ?_
  rw [dt_check_compat_match]
  cases h : nd.props.find? (fun p => p.name == strBytes "compatible") with
  | none => rfl
  | some p =>
    simp only []
    exact compatLoop_spec compat hc p.data.length p.data le_rfl

/-- Witness for claim C5 on the claim's example tree: a root with children
X (compatible foo), Y (compatible bar), Z (compatible foo); searching for
foo returns X, the first pre-order match, and both sides agree. -/
theorem claim_C5_witness :
    (∀ x ∈ strBytes "foo", x ≠ 0) ∧
    dt_find_compat
        (DTNode.mk (strBytes "root") []
          [DTNode.mk (strBytes "X")
            [{ name := strBytes "compatible", data := strBytes "foo" ++ [0] }] [],
           DTNode.mk (strBytes "Y")
            [{ name := strBytes "compatible", data := strBytes "bar" ++ [0] }] [],
           DTNode.mk (strBytes "Z")
            [{ name := strBytes "compatible", data := strBytes "foo" ++ [0] }] []])
        (strBytes "foo") =
      (preorder (DTNode.mk (strBytes "root") []
          [DTNode.mk (strBytes "X")
            [{ name := strBytes "compatible", data := strBytes "foo" ++ [0] }] [],
           DTNode.mk (strBytes "Y")
            [{ name := strBytes "compatible", data := strBytes "bar" ++ [0] }] [],
           DTNode.mk (strBytes "Z")
            [{ name := strBytes "compatible", data := strBytes "foo" ++ [0] }] []])).find?
        (fun nd =>
          match nd.props.find? (fun p => p.name == strBytes "compatible") with
          | some p => specCompatMatch (strBytes "foo") p.data
          | none => false) ∧
    (dt_find_compat
        (DTNode.mk (strBytes "root") []
          [DTNode.mk (strBytes "X")
            [{ name := strBytes "compatible", data := strBytes "foo" ++ [0] }] [],
           DTNode.mk (strBytes "Y")
            [{ name := strBytes "compatible", data := strBytes "bar" ++ [0] }] [],
           DTNode.mk (strBytes "Z")
            [{ name := strBytes "compatible", data := strBytes "foo" ++ [0] }] []])
        (strBytes "foo")).map DTNode.name = some (strBytes "X") := by
  refine ⟨by decide, ?_, by rfl⟩
  exact claim_C5 _ (strBytes "foo") (by decide)

/-! ## Byte-level reading lemmas -/

theorem byteAt_drop : ∀ (off : Nat) (l : List Nat) (i : Nat),
    byteAt (l.drop off) i = byteAt l (off + i) := by
  intro off
  induction off with
  | zero => intro l i; simp [byteAt]
  | succ k ih =>
    intro l i
    cases l with
    | nil => simp [byteAt, List.getD]
    | cons a t =>
      rw [List.drop_succ_cons, ih t i]
      show byteAt t (k + i) = byteAt (a :: t) (k + 1 + i)
      have : k + 1 + i = (k + i) + 1 := by omega
      rw [this]
      rfl

theorem byteAt_append_left : ∀ (l1 l2 : List Nat) (i : Nat), i < l1.length →
    byteAt (l1 ++ l2) i = byteAt l1 i := by
  intro l1
  induction l1 with
  | nil => intro l2 i h; simp at h
  | cons a t ih =>
    intro l2 i h
    cases i with
    | zero => rfl
    | succ j =>
      rw [List.cons_append]
      show byteAt (t ++ l2) j = byteAt (a :: t) (j + 1)
      rw [ih l2 j (by simpa using h)]
      rfl

theorem byteAt_take : ∀ (n : Nat) (l : List Nat) (i : Nat), i < n →
    byteAt (l.take n) i = byteAt l i := by
  intro n
  induction n with
  | zero => intro l i h; omega
  | succ k ih =>
    intro l i h
    cases l with
    | nil => rfl
    | cons a t =>
      rw [List.take_succ_cons]
      cases i with
      | zero => rfl
      | succ j =>
        show byteAt (t.take k) j = byteAt (a :: t) (j + 1)
        rw [ih t j (by omega)]
        rfl

theorem be32at_drop (blob : List Nat) (off : Nat) :
    be32at blob off = be32at (blob.drop off) 0 := by
  rw [be32at, be32at]
  rw [byteAt_drop off blob 0, byteAt_drop off blob 1, byteAt_drop off blob 2,
    byteAt_drop off blob 3]
  rfl

theorem be64at_drop (blob : List Nat) (off : Nat) :
    be64at blob off = be64at (blob.drop off) 0 := by
  rw [be64at, be64at]
  rw [byteAt_drop off blob 0, byteAt_drop off blob 1, byteAt_drop off blob 2,
    byteAt_drop off blob 3, byteAt_drop off blob 4, byteAt_drop off blob 5,
    byteAt_drop off blob 6, byteAt_drop off blob 7]
  rfl

theorem be32_head (v : Nat) (rest : List Nat) :
    be32at (be32 v ++ rest) 0 = v % 2 ^ 32 := by
  rw [be32at, be32]
  show v / 2 ^ 24 % 256 * 2 ^ 24 + v / 2 ^ 16 % 256 * 2 ^ 16 +
    v / 2 ^ 8 % 256 * 2 ^ 8 + v % 256 = v % 2 ^ 32
  omega

theorem be64_head (v : Nat) (rest : List Nat) :
    be64at (be64 v ++ rest) 0 = v % 2 ^ 64 := by
  rw [be64at, be64]
  show v / 2 ^ 56 % 256 * 2 ^ 56 + v / 2 ^ 48 % 256 * 2 ^ 48 +
    v / 2 ^ 40 % 256 * 2 ^ 40 + v / 2 ^ 32 % 256 * 2 ^ 32 +
    v / 2 ^ 24 % 256 * 2 ^ 24 + v / 2 ^ 16 % 256 * 2 ^ 16 +
    v / 2 ^ 8 % 256 * 2 ^ 8 + v % 256 = v % 2 ^ 64
  omega

theorem be32at_of_drop {blob : List Nat} {off v : Nat} {rest : List Nat}
    (h : blob.drop off = be32 v ++ rest) : be32at blob off = v % 2 ^ 32 := by
  rw [be32at_drop, h, be32_head]

theorem be64at_of_drop {blob : List Nat} {off v : Nat} {rest : List Nat}
    (h : blob.drop off = be64 v ++ rest) : be64at blob off = v % 2 ^ 64 := by
  rw [be64at_drop, h, be64_head]

theorem drop_prefix_len {l1 l2 : List Nat} {n : Nat} (h : l1.length = n) :
    (l1 ++ l2).drop n = l2 := by
  subst h
  exact List.drop_left l1 l2

theorem drop_of_drop_append {blob pre rest : List Nat} {off : Nat}
    (h : blob.drop off = pre ++ rest) :
    blob.drop (off + pre.length) = rest := by
  have h2 : (blob.drop off).drop pre.length = blob.drop (off + pre.length) := by
    rw [List.drop_drop, Nat.add_comm]
  rw [← h2, h, List.drop_left]

theorem be32_length (v : Nat) : (be32 v).length = 4 := rfl

theorem be64_length (v : Nat) : (be64 v).length = 8 := rfl

theorem takeUntilNul_append {name rest : List Nat}
    (h : name.all (· != 0) = true) :
    takeUntilNul (name ++ 0 :: rest) = name := by
  induction name with
  | nil => rw [List.nil_append, takeUntilNul, if_pos rfl]
  | cons a t ih =>
    have ha : a ≠ 0 := by
      have := List.all_eq_true.mp h a (by simp)
      simpa using this
    rw [List.cons_append, takeUntilNul, if_neg ha]
    rw [ih (by simp at h ⊢; exact fun x hx => h.2 x hx)]

/-! ## Claim C2: the measuring and emitting traversals agree -/

theorem pad32_length {l : List Nat} (h : l.length + 3 < 2 ^ 32) :
    (pad32 l).length = size32 l.length * 4 := by
  simp only [pad32, size32, List.length_append, List.length_replicate]
  omega

theorem flatten_props_len :
    ∀ (ps : List FdtProperty) (slen : Nat), propsWF ps = true →
      (dt_flatten_props ps slen).1.length = (dt_flat_props_size ps).1 ∧
      (dt_flatten_props ps slen).2.length = (dt_flat_props_size ps).2 := by
  intro ps
  induction ps with
  | nil => intro slen _; exact ⟨rfl, rfl⟩
  | cons p ps ih =>
    intro slen hwf
    rw [propsWF, Bool.and_eq_true, Bool.and_eq_true] at hwf
    obtain ⟨⟨_, hsz⟩, hrest⟩ := hwf
    have hsz2 : p.data.length + 3 < 2 ^ 32 := of_decide_eq_true hsz
    rw [dt_flatten_props, dt_flat_props_size]
    have ihs := ih (slen + (dt_flatten_prop p slen).2.length) hrest
    constructor
    · rw [List.length_append, ihs.1, dt_flatten_prop]
      simp only [dt_flat_prop_size]
      rw [List.length_append, List.length_append, List.length_append]
      rw [be32_length, be32_length, be32_length, pad32_length hsz2]
    · rw [List.length_append, ihs.2]
      simp [dt_flatten_prop, dt_flat_prop_size]

mutual

theorem flatten_node_len :
    ∀ (n : DTNode) (slen : Nat), nodeWF n = true →
      (dt_flatten_node n slen).1.length = (dt_flat_node_size n).1 ∧
      (dt_flatten_node n slen).2.length = (dt_flat_node_size n).2
  | .mk nm ps cs, slen => by
    intro hwf
    rw [nodeWF, Bool.and_eq_true, Bool.and_eq_true, Bool.and_eq_true] at hwf
    obtain ⟨⟨⟨_, hnl⟩, hps⟩, hcs⟩ := hwf
    have hnl2 : nm.length + 4 < 2 ^ 32 := of_decide_eq_true hnl
    have hp := flatten_props_len ps slen hps
    have hc := flatten_nodes_len cs (slen + (dt_flatten_props ps slen).2.length) hcs
    rw [dt_flatten_node, dt_flat_node_size]
    constructor
    · simp only [List.length_append]
      rw [be32_length, be32_length, hp.1, hc.1]
      rw [pad32_length (by simp; omega)]
      simp only [List.length_append, List.length_cons, List.length_nil]
    · simp only [List.length_append]
      rw [hc.2, hp.2]

theorem flatten_nodes_len :
    ∀ (cs : List DTNode) (slen : Nat), nodesWF cs = true →
      (dt_flatten_nodes cs slen).1.length = (dt_flat_nodes_size cs).1 ∧
      (dt_flatten_nodes cs slen).2.length = (dt_flat_nodes_size cs).2
  | [], slen => by intro _; exact ⟨rfl, rfl⟩
  | c :: cs, slen => by
    intro hwf
    rw [nodesWF, Bool.and_eq_true] at hwf
    have hh := flatten_node_len c slen hwf.1
    have ht := flatten_nodes_len cs (slen + (dt_flatten_node c slen).2.length)
      hwf.2
    rw [dt_flatten_nodes, dt_flat_nodes_size]
    exact ⟨by simp only [List.length_append]; rw [ht.1, hh.1],
      by simp only [List.length_append]; rw [ht.2, hh.2]⟩

end

theorem resmapBytes_length (es : List ReserveEntry) :
    (resmapBytes es).length = 16 * es.length := by
  induction es with
  | nil => rfl
  | cons e es ih =>
    rw [resmapBytes]
    simp only [List.length_append, List.length_cons]
    rw [be64_length, be64_length, ih]
    omega

theorem dt_flatten_length (t : DeviceTree) (h40 : 40 ≤ t.header.length)
    (hwf : nodeWF t.root = true) :
    (dt_flatten t).length = dt_flat_size t := by
  rw [dt_flatten, dt_flat_size]
  simp only [List.length_append, be32_length, be64_length]
  rw [resmapBytes_length,
    (flatten_node_len t.root 0 hwf).1, (flatten_node_len t.root 0 hwf).2]
  rw [List.length_take, List.length_take, List.length_drop, List.length_drop]
  omega

/-- Claim C2: dt_flatten emits exactly dt_flat_size bytes (the byte image
of the destination buffer has that length, so no write lands at or beyond
it), the totalsize header field of the flattened output reads back as
dt_flat_size, and the emitting traversal of dt_flatten_node produces for
every section exactly the byte counts computed by the measuring traversal
of dt_flat_node_size. -/
theorem claim_C2 (t : DeviceTree) (h40 : 40 ≤ t.header.length)
    (hwf : nodeWF t.root = true) (hfit : dt_flat_size t < 2 ^ 32) :
    (dt_flatten t).length = dt_flat_size t ∧
    be32at (dt_flatten t) 4 = dt_flat_size t ∧
    (∀ slen, (dt_flatten_node t.root slen).1.length =
      (dt_flat_node_size t.root).1 ∧
      (dt_flatten_node t.root slen).2.length = (dt_flat_node_size t.root).2) := by
  refine ⟨dt_flatten_length t h40 hwf, ?_, fun slen => flatten_node_len t.root slen hwf⟩
  have hdrop : (dt_flatten t).drop 4 =
      be32 (t.header.length + 16 * t.reserve_map.length + 16 +
        (dt_flat_node_size t.root).1 + 4 + (dt_flat_node_size t.root).2) ++
      (be32 (t.header.length + 16 * t.reserve_map.length + 16) ++
       be32 (t.header.length + 16 * t.reserve_map.length + 16 +
         (dt_flat_node_size t.root).1 + 4) ++
       (t.header.drop 16).take 16 ++ be32 (dt_flat_node_size t.root).2 ++
       be32 (dt_flat_node_size t.root).1 ++ t.header.drop 40 ++
       resmapBytes t.reserve_map ++ be64 0 ++ be64 0 ++
       (dt_flatten_node t.root 0).1 ++ be32 TokenEnd ++
       (dt_flatten_node t.root 0).2) := by
    rw [dt_flatten]
    simp only [List.append_assoc]
    rw [drop_prefix_len (by rw [List.length_take]; omega)]
  have := be32at_of_drop hdrop
  rw [this, Nat.mod_eq_of_lt]
  · rw [dt_flat_size]
  · rw [← dt_flat_size]
    exact hfit

/-- Witness for claim C2 at the concrete sample tree. -/
theorem claim_C2_witness :
    (40 ≤ sampleTree.header.length ∧ nodeWF sampleTree.root = true ∧
      dt_flat_size sampleTree < 2 ^ 32) ∧
    (dt_flatten sampleTree).length = dt_flat_size sampleTree ∧
    be32at (dt_flatten sampleTree) 4 = dt_flat_size sampleTree := by
  refine ⟨⟨by decide, by rfl, by decide⟩, ?_, ?_⟩
  · exact (claim_C2 sampleTree (by decide) (by rfl) (by decide)).1
  · exact (claim_C2 sampleTree (by decide) (by rfl) (by decide)).2.1

/-! ## Claim C1: unflatten is a left inverse of flatten -/

theorem unflatten_node_none {blob : List Nat} {fuel offset : Nat}
    (h : be32at blob offset ≠ TokenBeginNode) :
    fdt_unflatten_node blob fuel offset = (none, 0) := by
  cases fuel with
  | zero => rw [fdt_unflatten_node]
  | succ k =>
    rw [fdt_unflatten_node]
    rw [show fdt_node_name blob offset = (none, 0) from by
      rw [fdt_node_name, if_pos h]]

theorem take_data_pad32 (d rest : List Nat) :
    (pad32 d ++ rest).take d.length = d := by
  rw [pad32, List.append_assoc]
  exact List.take_left d _

theorem unflatten_props_spec :
    ∀ (ps : List FdtProperty) (fuel : Nat) (blob : List Nat)
      (soff slen : Nat) (rest srest : List Nat),
      propsWF ps = true →
      be32at blob 12 + slen + (dt_flat_props_size ps).2 < 2 ^ 32 →
      blob.drop soff = (dt_flatten_props ps slen).1 ++ rest →
      blob.drop (be32at blob 12 + slen) = (dt_flatten_props ps slen).2 ++ srest →
      be32at blob (soff + (dt_flat_props_size ps).1) ≠ TokenProperty →
      ps.length + 1 ≤ fuel →
      unflatten_props blob fuel soff = (ps, (dt_flat_props_size ps).1) := by
  intro ps
  induction ps with
  | nil =>
    intro fuel blob soff slen rest srest _ _ _ _ htok hfuel
    cases fuel with
    | zero => omega
    | succ k =>
      rw [unflatten_props]
      rw [show fdt_next_property blob soff = (none, 0) from by
        rw [fdt_next_property,
          if_pos (by simpa [dt_flat_props_size] using htok)]]
      rfl
  | cons p ps ih =>
    intro fuel blob soff slen rest srest hwf hsb hdrop hstr htok hfuel
    rw [propsWF, Bool.and_eq_true, Bool.and_eq_true] at hwf
    obtain ⟨⟨hnm, hsz⟩, hrest⟩ := hwf
    have hsz2 : p.data.length + 3 < 2 ^ 32 := of_decide_eq_true hsz
    rw [dt_flatten_props, dt_flatten_prop] at hdrop hstr
    simp only [List.append_assoc] at hdrop hstr
    cases fuel with
    | zero => omega
    | succ k =>
      -- the strings cursor advance for this property
      have hslen1 : (p.name ++ [0]).length = p.name.length + 1 := by simp
      -- individual field reads
      have htokp : be32at blob soff = TokenProperty := by
        rw [be32at_of_drop hdrop]
        rfl
      have hsize : be32at blob (soff + 4) = p.data.length := by
        have h2 := drop_of_drop_append hdrop
        rw [be32_length] at h2
        rw [be32at_of_drop h2, Nat.mod_eq_of_lt (by omega)]
      have hnoff : be32at blob (soff + 8) = slen := by
        have h2 := drop_of_drop_append hdrop
        rw [be32_length] at h2
        have h3 := drop_of_drop_append h2
        rw [be32_length, show soff + 4 + 4 = soff + 8 by omega] at h3
        rw [be32at_of_drop h3, Nat.mod_eq_of_lt (by
          have : 1 ≤ (dt_flat_props_size (p :: ps)).2 := by
            rw [dt_flat_props_size, dt_flat_prop_size]
            simp only []
            omega
          omega)]
      have hdata : blob.drop (soff + 12) = pad32 p.data ++
          ((dt_flatten_props ps (slen + (p.name ++ [0]).length)).1 ++ rest) := by
        have h2 := drop_of_drop_append hdrop
        rw [be32_length] at h2
        have h3 := drop_of_drop_append h2
        rw [be32_length, show soff + 4 + 4 = soff + 8 by omega] at h3
        have h4 := drop_of_drop_append h3
        rw [be32_length, show soff + 8 + 4 = soff + 12 by omega] at h4
        exact h4
      have hname : readCString blob (be32at blob 12 + slen) = p.name := by
        rw [readCString, hstr]
        exact takeUntilNul_append hnm
      -- the parse of the head property
      have hhead : fdt_next_property blob soff =
          (some p, (3 + size32 p.data.length) * 4) := by
        rw [fdt_next_property, if_neg (by simp [htokp])]
        simp only [hsize, hnoff]
        rw [show (slen + be32at blob 12) % 2 ^ 32 = be32at blob 12 + slen from by
          omega]
        rw [hname, hdata, take_data_pad32]
      rw [unflatten_props, hhead]
      simp only []
      have hcons : (3 + size32 p.data.length) * 4 = 12 + size32 p.data.length * 4 := by
        ring
      have hpadlen : (pad32 p.data).length = size32 p.data.length * 4 :=
        pad32_length hsz2
      have iha := ih k blob (soff + (3 + size32 p.data.length) * 4)
        (slen + (p.name ++ [0]).length)
        rest srest hrest
        (by
          rw [dt_flat_props_size, dt_flat_prop_size] at hsb
          simp only [] at hsb
          rw [hslen1]
          omega)
        (by
          have h5 := drop_of_drop_append hdata
          rw [hpadlen] at h5
          rw [show soff + (3 + size32 p.data.length) * 4 =
            soff + 12 + size32 p.data.length * 4 from by ring]
          exact h5)
        (by
          rw [← List.append_assoc] at hstr
          have h7 := drop_of_drop_append hstr
          rw [← Nat.add_assoc]
          exact h7)
        (by
          rw [show soff + (3 + size32 p.data.length) * 4 +
              (dt_flat_props_size ps).1 =
            soff + (dt_flat_props_size (p :: ps)).1 from by
            rw [dt_flat_props_size, dt_flat_prop_size]
            simp only []
            ring]
          exact htok)
        (by simp at hfuel; omega)
      rw [iha]
      rw [dt_flat_props_size, dt_flat_prop_size]
      simp only []
      rw [show (3 + size32 p.data.length) * 4 = 4 + 4 + 4 +
        size32 p.data.length * 4 from by ring]

theorem props_size_ge (ps : List FdtProperty) :
    ps.length ≤ (dt_flat_props_size ps).1 := by
  induction ps with
  | nil => simp [dt_flat_props_size]
  | cons p ps ih =>
    rw [dt_flat_props_size, dt_flat_prop_size]
    simp only [List.length_cons]
    omega

theorem node_size_pos (n : DTNode) : 1 ≤ (dt_flat_node_size n).1 := by
  obtain ⟨nm, ps, cs⟩ := n
  rw [dt_flat_node_size]
  simp only []
  omega

mutual

theorem nodeFuel_le : ∀ n : DTNode, nodeFuel n ≤ (dt_flat_node_size n).1
  | .mk nm ps cs => by
    have h1 := props_size_ge ps
    have h2 := childFuel_le cs
    rw [nodeFuel, dt_flat_node_size]
    simp only []
    have h3 : max (ps.length + 1) (childFuel cs) ≤
        (dt_flat_props_size ps).1 + (dt_flat_nodes_size cs).1 + 1 :=
      Nat.max_le.mpr ⟨by omega, by omega⟩
    omega

theorem childFuel_le : ∀ cs : List DTNode,
    childFuel cs ≤ (dt_flat_nodes_size cs).1 + 1
  | [] => by rw [childFuel, dt_flat_nodes_size]
  | c :: cs => by
    have h1 := nodeFuel_le c
    have h2 := childFuel_le cs
    have h3 := node_size_pos c
    rw [childFuel, dt_flat_nodes_size]
    simp only []
    have h4 : max (nodeFuel c) (childFuel cs) ≤
        (dt_flat_node_size c).1 + (dt_flat_nodes_size cs).1 :=
      Nat.max_le.mpr ⟨by omega, by omega⟩
    omega

end

theorem flatten_node_head (c : DTNode) (s : Nat) :
    ∃ tail, (dt_flatten_node c s).1 = be32 TokenBeginNode ++ tail := by
  obtain ⟨nm, ps, cs⟩ := c
  rw [dt_flatten_node]
  exact ⟨pad32 (nm ++ [0]) ++ ((dt_flatten_props ps s).1 ++
    ((dt_flatten_nodes cs (s + (dt_flatten_props ps s).2.length)).1 ++
      be32 TokenEndNode)), by simp only [List.append_assoc]⟩

theorem unflatten_parse :
    ∀ (fuel : Nat) (blob : List Nat),
      (∀ (n : DTNode) (soff slen : Nat) (rest srest : List Nat),
        nodeWF n = true →
        be32at blob 12 + slen + (dt_flat_node_size n).2 < 2 ^ 32 →
        blob.drop soff = (dt_flatten_node n slen).1 ++ rest →
        blob.drop (be32at blob 12 + slen) = (dt_flatten_node n slen).2 ++ srest →
        nodeFuel n ≤ fuel →
        fdt_unflatten_node blob fuel soff = (some n, (dt_flat_node_size n).1)) ∧
      (∀ (cs : List DTNode) (soff slen : Nat) (rest srest : List Nat),
        nodesWF cs = true →
        be32at blob 12 + slen + (dt_flat_nodes_size cs).2 < 2 ^ 32 →
        blob.drop soff = (dt_flatten_nodes cs slen).1 ++ rest →
        blob.drop (be32at blob 12 + slen) =
          (dt_flatten_nodes cs slen).2 ++ srest →
        be32at blob (soff + (dt_flat_nodes_size cs).1) ≠ TokenBeginNode →
        childFuel cs ≤ fuel →
        unflatten_children blob fuel soff = (cs, (dt_flat_nodes_size cs).1)) := by
  intro fuel blob
  induction fuel with
  | zero =>
    constructor
    · intro n soff slen rest srest _ _ _ _ hfuel
      obtain ⟨nm, ps, cs⟩ := n
      rw [nodeFuel] at hfuel
      omega
    · intro cs soff slen rest srest _ _ _ _ _ hfuel
      cases cs with
      | nil => rw [childFuel] at hfuel; omega
      | cons c cs2 => rw [childFuel] at hfuel; omega
  | succ k ih =>
    constructor
    · -- one node
      intro n soff slen rest srest hwf hsb hdrop hstr hfuel
      obtain ⟨nm, ps, cs⟩ := n
      rw [nodeWF, Bool.and_eq_true, Bool.and_eq_true, Bool.and_eq_true] at hwf
      obtain ⟨⟨⟨hnm, hnl⟩, hps⟩, hcs⟩ := hwf
      have hnl2 : nm.length + 4 < 2 ^ 32 := of_decide_eq_true hnl
      rw [nodeFuel] at hfuel
      have hmax := Nat.max_le.mp (show max (ps.length + 1) (childFuel cs) ≤ k
        from by omega)
      rw [dt_flatten_node] at hdrop hstr
      simp only [List.append_assoc] at hdrop hstr
      rw [dt_flat_node_size] at hsb
      simp only [] at hsb
      have hPlen1 : (dt_flatten_props ps slen).1.length =
        (dt_flat_props_size ps).1 := (flatten_props_len ps slen hps).1
      have hPlen2 : (dt_flatten_props ps slen).2.length =
        (dt_flat_props_size ps).2 := (flatten_props_len ps slen hps).2
      have hpadname : pad32 (nm ++ [0]) = nm ++ 0 ::
          List.replicate (size32 (nm ++ [0]).length * 4 - (nm ++ [0]).length)
            0 := by
        rw [pad32]
        simp only [List.append_assoc, List.cons_append, List.nil_append]
      have hpadlen : (pad32 (nm ++ [0])).length =
          size32 (nm.length + 1) * 4 := by
        rw [pad32_length (by simp; omega)]
        simp
      have htokn : be32at blob soff = TokenBeginNode := by
        rw [be32at_of_drop hdrop]
        rfl
      have hdropName := drop_of_drop_append hdrop
      rw [be32_length] at hdropName
      have hname : readCString blob (soff + 4) = nm := by
        rw [readCString, hdropName, hpadname]
        simp only [List.append_assoc, List.cons_append]
        exact takeUntilNul_append hnm
      have hnodename : fdt_node_name blob soff =
          (some nm, size32 (nm.length + 1) * 4 + 4) := by
        rw [fdt_node_name, if_neg (by simp [htokn])]
        simp only [hname]
      have hdropP : blob.drop (soff + (4 + (pad32 (nm ++ [0])).length)) =
          (dt_flatten_props ps slen).1 ++
            ((dt_flatten_nodes cs (slen +
              (dt_flatten_props ps slen).2.length)).1 ++
              (be32 TokenEndNode ++ rest)) := by
        have h3 := drop_of_drop_append hdropName
        rw [Nat.add_assoc] at h3
        exact h3
      have hdropC : blob.drop (soff + (4 + (pad32 (nm ++ [0])).length) +
          (dt_flat_props_size ps).1) =
          (dt_flatten_nodes cs (slen +
            (dt_flatten_props ps slen).2.length)).1 ++
            (be32 TokenEndNode ++ rest) := by
        have h4 := drop_of_drop_append hdropP
        rw [hPlen1] at h4
        exact h4
      have hdropEnd : blob.drop (soff + (4 + (pad32 (nm ++ [0])).length) +
          (dt_flat_props_size ps).1 + (dt_flat_nodes_size cs).1) =
          be32 TokenEndNode ++ rest := by
        have h5 := drop_of_drop_append hdropC
        rw [(flatten_nodes_len cs (slen +
          (dt_flatten_props ps slen).2.length) hcs).1] at h5
        exact h5
      have htokP : be32at blob (soff + (4 + (pad32 (nm ++ [0])).length) +
          (dt_flat_props_size ps).1) ≠ TokenProperty := by
        cases cs with
        | nil =>
          rw [show (dt_flatten_nodes [] (slen +
            (dt_flatten_props ps slen).2.length)).1 = [] from rfl,
            List.nil_append] at hdropC
          rw [be32at_of_drop hdropC]
          decide
        | cons c cs2 =>
          rw [dt_flatten_nodes] at hdropC
          simp only [List.append_assoc] at hdropC
          obtain ⟨tail, htail⟩ := flatten_node_head c
            (slen + (dt_flatten_props ps slen).2.length)
          rw [htail] at hdropC
          simp only [List.append_assoc] at hdropC
          rw [be32at_of_drop hdropC]
          decide
      have hprops := unflatten_props_spec ps k blob
        (soff + (4 + (pad32 (nm ++ [0])).length)) slen
        ((dt_flatten_nodes cs (slen +
          (dt_flatten_props ps slen).2.length)).1 ++
          (be32 TokenEndNode ++ rest))
        ((dt_flatten_nodes cs (slen +
          (dt_flatten_props ps slen).2.length)).2 ++ srest)
        hps (by omega) hdropP hstr htokP (by omega)
      have hstrC : blob.drop (be32at blob 12 +
          (slen + (dt_flat_props_size ps).2)) =
          (dt_flatten_nodes cs (slen + (dt_flat_props_size ps).2)).2 ++
            srest := by
        have h6 := drop_of_drop_append hstr
        rw [hPlen2, Nat.add_assoc] at h6
        exact h6
      have htokC : be32at blob (soff + (4 + (pad32 (nm ++ [0])).length) +
          (dt_flat_props_size ps).1 + (dt_flat_nodes_size cs).1) ≠
          TokenBeginNode := by
        rw [be32at_of_drop hdropEnd]
        decide
      have hchild := ih.2 cs
        (soff + (4 + (pad32 (nm ++ [0])).length) + (dt_flat_props_size ps).1)
        (slen + (dt_flat_props_size ps).2) (be32 TokenEndNode ++ rest) srest
        hcs (by omega)
        (by rw [hPlen2] at hdropC; exact hdropC)
        hstrC
        htokC (by omega)
      rw [fdt_unflatten_node, hnodename]
      simp only []
      rw [show soff + (size32 (nm.length + 1) * 4 + 4) =
        soff + (4 + (pad32 (nm ++ [0])).length) from by rw [hpadlen]; omega]
      rw [hprops]
      simp only []
      rw [hchild]
      simp only []
      rw [dt_flat_node_size]
      simp only []
      refine congrArg (fun x => (some (DTNode.mk nm ps cs), x)) ?_
      omega
    · -- a child list
      intro cs soff slen rest srest hwf hsb hdrop hstr htok hfuel
      cases cs with
      | nil =>
        rw [unflatten_children]
        rw [unflatten_node_none (by
          rw [show soff + (dt_flat_nodes_size ([] : List DTNode)).1 = soff
            from by rw [dt_flat_nodes_size]; rfl] at htok
          exact htok)]
        rfl
      | cons c cs2 =>
        rw [nodesWF, Bool.and_eq_true] at hwf
        rw [childFuel] at hfuel
        have hmax := Nat.max_le.mp (show max (nodeFuel c) (childFuel cs2) ≤ k
          from by omega)
        rw [dt_flatten_nodes] at hdrop hstr
        simp only [List.append_assoc] at hdrop hstr
        rw [dt_flat_nodes_size] at hsb
        simp only [] at hsb
        have hH := flatten_node_len c slen hwf.1
        have hnode := ih.1 c soff slen
          ((dt_flatten_nodes cs2 (slen +
            (dt_flatten_node c slen).2.length)).1 ++ rest)
          ((dt_flatten_nodes cs2 (slen +
            (dt_flatten_node c slen).2.length)).2 ++ srest)
          hwf.1 (by omega) hdrop hstr (by omega)
        rw [unflatten_children, hnode]
        simp only []
        have hdrop2 : blob.drop (soff + (dt_flat_node_size c).1) =
            (dt_flatten_nodes cs2 (slen + (dt_flat_node_size c).2)).1 ++
              rest := by
          have h2 := drop_of_drop_append hdrop
          rw [hH.1, hH.2] at h2
          exact h2
        have hstr2 : blob.drop (be32at blob 12 +
            (slen + (dt_flat_node_size c).2)) =
            (dt_flatten_nodes cs2 (slen + (dt_flat_node_size c).2)).2 ++
              srest := by
          have h3 := drop_of_drop_append hstr
          rw [hH.2, Nat.add_assoc] at h3
          exact h3
        have htok2 : be32at blob (soff + (dt_flat_node_size c).1 +
            (dt_flat_nodes_size cs2).1) ≠ TokenBeginNode := by
          rw [show soff + (dt_flat_node_size c).1 +
            (dt_flat_nodes_size cs2).1 =
            soff + (dt_flat_nodes_size (c :: cs2)).1 from by
            rw [dt_flat_nodes_size]; simp only []; omega]
          exact htok
        have hrec := ih.2 cs2 (soff + (dt_flat_node_size c).1)
          (slen + (dt_flat_node_size c).2) rest srest hwf.2
          (by omega) hdrop2 hstr2 htok2 (by omega)
        rw [hrec]
        rw [dt_flat_nodes_size]

theorem unflatten_resmap_spec :
    ∀ (es : List ReserveEntry) (fuel : Nat) (blob : List Nat) (off : Nat)
      (rest : List Nat),
      es.all (fun e => decide (e.start < 2 ^ 64) && decide (0 < e.size) &&
        decide (e.size < 2 ^ 64)) = true →
      blob.drop off = resmapBytes es ++ (be64 0 ++ (be64 0 ++ rest)) →
      es.length + 1 ≤ fuel →
      unflatten_resmap blob fuel off = (es, 16 * es.length) := by
  intro es
  induction es with
  | nil =>
    intro fuel blob off rest _ hdrop hfuel
    cases fuel with
    | zero => omega
    | succ k =>
      rw [resmapBytes, List.nil_append] at hdrop
      have hsz : be64at blob (off + 8) = 0 := by
        have h2 := drop_of_drop_append hdrop
        rw [be64_length] at h2
        rw [be64at_of_drop h2]
        simp
      rw [unflatten_resmap]
      rw [show fdt_unflatten_map_entry blob off = (none, 0) from by
        simp [fdt_unflatten_map_entry, hsz]]
      simp
  | cons e es ih =>
    intro fuel blob off rest hwf hdrop hfuel
    rw [List.all_cons, Bool.and_eq_true, Bool.and_eq_true,
      Bool.and_eq_true] at hwf
    obtain ⟨⟨⟨hs1, hs2⟩, hs3⟩, hrest⟩ := hwf
    have hstart : e.start < 2 ^ 64 := of_decide_eq_true hs1
    have hszpos : 0 < e.size := of_decide_eq_true hs2
    have hszlt : e.size < 2 ^ 64 := of_decide_eq_true hs3
    cases fuel with
    | zero => simp at hfuel
    | succ k =>
      rw [resmapBytes] at hdrop
      simp only [List.append_assoc] at hdrop
      have hrs : be64at blob off = e.start := by
        rw [be64at_of_drop hdrop, Nat.mod_eq_of_lt hstart]
      have h2 := drop_of_drop_append hdrop
      rw [be64_length] at h2
      have hrsz : be64at blob (off + 8) = e.size := by
        rw [be64at_of_drop h2, Nat.mod_eq_of_lt hszlt]
      have hentry : fdt_unflatten_map_entry blob off =
          (some e, 16) := by
        rw [fdt_unflatten_map_entry]
        simp only [hrs, hrsz]
        rw [if_neg (by omega)]
      rw [unflatten_resmap, hentry]
      simp only []
      have h3 := drop_of_drop_append h2
      rw [be64_length, show off + 8 + 8 = off + 16 from by omega] at h3
      rw [ih k blob (off + 16) rest hrest h3 (by simp at hfuel; omega)]
      show (e :: es, 16 + 16 * es.length) = (e :: es, 16 * (e :: es).length)
      rw [List.length_cons]
      refine congrArg (fun x => (e :: es, x)) ?_
      omega

/-- Claim C1: for every hand-built tree with a well-formed preserved
header, unflattening the flattened image reproduces the tree exactly: the
same computed header size, the same reserve-map entries in order, and a
root with the same node names, property names/values and child order. -/
theorem claim_C1 (t : DeviceTree) (h : treeWF t = true) :
    fdt_unflatten (dt_flatten t) =
      ⟨t.header.length, t.reserve_map, some t.root⟩ := by
  rw [treeWF] at h
  simp only [Bool.and_eq_true] at h
  obtain ⟨⟨⟨⟨h40b, h16b⟩, hresb⟩, hrootb⟩, hfitb⟩ := h
  have h40 : 40 ≤ t.header.length := of_decide_eq_true h40b
  have h16 : be32at t.header 16 = t.header.length := of_decide_eq_true h16b
  have hfit : dt_flat_size t < 2 ^ 32 := of_decide_eq_true hfitb
  have hflat : dt_flat_size t = t.header.length +
      16 * t.reserve_map.length + 16 + (dt_flat_node_size t.root).1 + 4 +
      (dt_flat_node_size t.root).2 := by rw [dt_flat_size]
  have hlen := dt_flatten_length t h40 hrootb
  -- peel the flattened image chunk by chunk
  have d0 : (dt_flatten t).drop 0 = t.header.take 4 ++
      (be32 (t.header.length + 16 * t.reserve_map.length + 16 +
        (dt_flat_node_size t.root).1 + 4 + (dt_flat_node_size t.root).2) ++
      (be32 (t.header.length + 16 * t.reserve_map.length + 16) ++
      (be32 (t.header.length + 16 * t.reserve_map.length + 16 +
        (dt_flat_node_size t.root).1 + 4) ++
      ((t.header.drop 16).take 16 ++
      (be32 (dt_flat_node_size t.root).2 ++
      (be32 (dt_flat_node_size t.root).1 ++
      (t.header.drop 40 ++
      (resmapBytes t.reserve_map ++
      (be64 0 ++
      (be64 0 ++
      ((dt_flatten_node t.root 0).1 ++
      (be32 TokenEnd ++
      (dt_flatten_node t.root 0).2)))))))))))) := by
    rw [List.drop_zero, dt_flatten]
    simp only [List.append_assoc]
  have hc1 : (t.header.take 4).length = 4 := by
    rw [List.length_take]; omega
  have d4 := drop_of_drop_append d0
  rw [hc1] at d4
  norm_num at d4
  have d8 := drop_of_drop_append d4
  rw [be32_length] at d8
  norm_num at d8
  have d12 := drop_of_drop_append d8
  rw [be32_length] at d12
  norm_num at d12
  have d16 := drop_of_drop_append d12
  rw [be32_length] at d16
  norm_num at d16
  have hc5 : ((t.header.drop 16).take 16).length = 16 := by
    rw [List.length_take, List.length_drop]; omega
  have d32 := drop_of_drop_append d16
  rw [hc5] at d32
  norm_num at d32
  have d36 := drop_of_drop_append d32
  rw [be32_length] at d36
  norm_num at d36
  have d40 := drop_of_drop_append d36
  rw [be32_length] at d40
  norm_num at d40
  have hc8 : (t.header.drop 40).length = t.header.length - 40 := by
    rw [List.length_drop]
  have dHL := drop_of_drop_append d40
  rw [hc8, show 40 + (t.header.length - 40) = t.header.length from by omega]
    at dHL
  have dRes1 := drop_of_drop_append dHL
  rw [resmapBytes_length] at dRes1
  have dRes2 := drop_of_drop_append dRes1
  rw [be64_length] at dRes2
  have dSO := drop_of_drop_append dRes2
  rw [be64_length, show t.header.length + 16 * t.reserve_map.length + 8 + 8 =
    t.header.length + 16 * t.reserve_map.length + 16 from by omega] at dSO
  have dStrings1 := drop_of_drop_append dSO
  rw [(flatten_node_len t.root 0 hrootb).1] at dStrings1
  have dGO := drop_of_drop_append dStrings1
  rw [be32_length] at dGO
  -- header field reads
  have hr8 : be32at (dt_flatten t) 8 =
      t.header.length + 16 * t.reserve_map.length + 16 := by
    rw [be32at_of_drop d8, Nat.mod_eq_of_lt (by omega)]
  have hr12 : be32at (dt_flatten t) 12 =
      t.header.length + 16 * t.reserve_map.length + 16 +
        (dt_flat_node_size t.root).1 + 4 := by
    rw [be32at_of_drop d12, Nat.mod_eq_of_lt (by omega)]
  have hr16 : be32at (dt_flatten t) 16 = t.header.length := by
    rw [be32at_drop, d16, ← h16]
    rw [be32at, be32at]
    rw [byteAt_append_left _ _ 0 (by omega), byteAt_append_left _ _ 1
      (by omega), byteAt_append_left _ _ 2 (by omega),
      byteAt_append_left _ _ 3 (by omega)]
    rw [byteAt_take _ _ 0 (by omega), byteAt_take _ _ 1 (by omega),
      byteAt_take _ _ 2 (by omega), byteAt_take _ _ 3 (by omega)]
    rw [byteAt_drop, byteAt_drop, byteAt_drop, byteAt_drop]
  -- the reserve map
  have hresmap : unflatten_resmap (dt_flatten t) (dt_flatten t).length
      t.header.length = (t.reserve_map, 16 * t.reserve_map.length) := by
    refine unflatten_resmap_spec t.reserve_map (dt_flatten t).length
      (dt_flatten t) t.header.length _ hresb dHL ?_
    rw [hlen, hflat]
    omega
  -- the root node
  have hnode : fdt_unflatten_node (dt_flatten t) (dt_flatten t).length
      (t.header.length + 16 * t.reserve_map.length + 16) =
      (some t.root, (dt_flat_node_size t.root).1) := by
    refine (unflatten_parse (dt_flatten t).length (dt_flatten t)).1 t.root
      (t.header.length + 16 * t.reserve_map.length + 16) 0
      (be32 TokenEnd ++ (dt_flatten_node t.root 0).2)
      [] hrootb ?_ ?_ ?_ ?_
    · rw [hr12]
      omega
    · exact dSO
    · rw [hr12]
      simp only [Nat.add_zero, List.append_nil]
      exact dGO
    · rw [hlen]
      have h1 := nodeFuel_le t.root
      omega
  -- assemble
  rw [fdt_unflatten]
  simp only [hr8, hr12, hr16]
  rw [hresmap, hnode]
  simp only []
  have hmin : min (min (t.header.length + 16 * t.reserve_map.length + 16)
      (t.header.length + 16 * t.reserve_map.length + 16 +
        (dt_flat_node_size t.root).1 + 4)) t.header.length =
      t.header.length := by omega
  rw [hmin]

/-- Witness for claim C1: the concrete sample tree round-trips through
dt_flatten and fdt_unflatten. -/
theorem claim_C1_witness :
    treeWF sampleTree = true ∧
    fdt_unflatten (dt_flatten sampleTree) =
      ⟨sampleTree.header.length, sampleTree.reserve_map,
       some sampleTree.root⟩ :=
  ⟨by decide, claim_C1 sampleTree (by decide)⟩
